import Mathlib

/-!
# Pyextract — verification of the PyInstaller-archive extractor

A shallow embedding, in Lean 4, of the core of the Pyextract repository
(authoritative translation source: `src/src/PyInstaller.cpp`, with the
cookie-size constants from `src/PyInstArchive.h` and `CTOCEntry` from
`src/pyinstarchive.h`).  Files are modelled as `List Nat` of byte values;
the shared `std::ifstream` is modelled as a `Stream` (file, cursor
position, fail bit); 32-bit and 64-bit machine arithmetic is `Nat`
arithmetic reduced `% 2^32` / `% 2^64` at the points where the C++ types
truncate.  Bit-masked shifts such as `(v >> 24) & 0xFF` are written as
the equal div/mod operations on byte lanes.

The development covers: the backward magic-signature search
(`findCookie`), version sniffing (`determinePyinstallerVersion`), overlay
and TOC offset resolution (`calculateOverlayInfo`), the TOC scan
(`parseTOC` and its helpers), and per-entry extraction
(`decompressAndExtractFile`, with zlib inflate as an oracle parameter and
the worker pool as an explicit completion schedule).  The fail bit of
the shared stream is threaded faithfully: `seekg` never clears it, the
extraction payload read checks no `gcount()`, and repeated TOC runs and
pool runs inherit it (`parseTOCRun`, `extractRun`, `runSchedule`).
Loops are embedded with explicit fuel so that every definition evaluates
by kernel reduction; fuel sufficiency is proved where termination is
claimed.
-/

namespace Pyextract

/-- The 8-byte magic `MEI\014\013\012\013\016` from `PyInstArchive::MAGIC`. -/
def MAGIC : List Nat := [77, 69, 73, 12, 11, 10, 11, 14]

/-- `PYINST20_COOKIE_SIZE` (`src/PyInstArchive.h`). -/
def PYINST20_COOKIE_SIZE : Nat := 24

/-- `PYINST21_COOKIE_SIZE = 24 + 64` (`src/PyInstArchive.h`). -/
def PYINST21_COOKIE_SIZE : Nat := 24 + 64

/-- `uint32_t swapBytes(uint32_t)`: byte-order reversal of a 32-bit value.
Each C++ term `(v >> s) & mask` / `(v << s) & mask` is written as the
corresponding div/mod extraction of the same byte lane. -/
def swapBytes (v : Nat) : Nat :=
  (v / 2 ^ 24) % 2 ^ 8
    + ((v / 2 ^ 16) % 2 ^ 8) * 2 ^ 8
    + ((v / 2 ^ 8) % 2 ^ 8) * 2 ^ 16
    + (v % 2 ^ 8) * 2 ^ 24

/-- `memcpy` of four buffer bytes into a `uint32_t` on the little-endian
host (each `char` contributes its low 8 bits). -/
def leU32 (bs : List Nat) : Nat :=
  bs.getD 0 0 % 2 ^ 8
    + bs.getD 1 0 % 2 ^ 8 * 2 ^ 8
    + bs.getD 2 0 % 2 ^ 8 * 2 ^ 16
    + bs.getD 3 0 % 2 ^ 8 * 2 ^ 24

/-- Big-endian encoding of a 32-bit value, as written by the archive
builder (used to construct synthetic archives for round-trip claims). -/
def beBytes32 (v : Nat) : List Nat :=
  [(v / 2 ^ 24) % 2 ^ 8, (v / 2 ^ 16) % 2 ^ 8, (v / 2 ^ 8) % 2 ^ 8, v % 2 ^ 8]

/- ## The signature locator (`PyInstArchive::findCookie`)

`findCookie` walks backward from end-of-file in windows of at most
`8192` bytes.  Each iteration reads `chunkSize = endPos - startPos`
bytes into the front of a `chunkSize + 7`-long buffer and then runs

    for (size_t i = chunkSize; i < buffer.size(); ++i)
        buffer[i] = buffer[i - chunkSize];

so position `j ≥ chunkSize` of the buffer holds byte `j % chunkSize` of
the same chunk (the recurrence copies the chunk cyclically).  The scan
then compares `buffer[i..i+8)` against the magic for
`i = chunkSize-1, …, 0`. -/

/-- Byte `j` of the scan buffer for window `[startPos, startPos+chunkSize)`:
for `j < chunkSize` the file byte at `startPos + j`, and beyond that the
cyclic copy produced by the in-buffer copy loop. -/
def windowByte (file : List Nat) (startPos chunkSize j : Nat) : Nat :=
  file.getD (startPos + j % chunkSize) 0

/-- `memcmp(buffer + i, MAGIC, 8) == 0` on the scan buffer. -/
def windowMatch (file : List Nat) (startPos chunkSize i : Nat) : Bool :=
  (List.range MAGIC.length).all fun t =>
    windowByte file startPos chunkSize (i + t) == MAGIC.getD t 0

/-- The back-to-front scan `for (size_t i = chunkSize; i-- > 0;)`:
returns the greatest `i < bound` whose window bytes match the magic. -/
def scanBack (f : Nat → Bool) : Nat → Option Nat
  | 0 => none
  | i + 1 => if f i then some i else scanBack f i

/-- One iteration of the `while (endPos >= MAGIC.size())` loop of
`findCookie`, with explicit fuel (the loop shortens `endPos` by
`8192 - 7` per iteration, so `file.length + 1` units of fuel always
suffice; `none` means the fuel ran out). -/
def findCookieLoop (file : List Nat) : Nat → Nat → Option (Option Nat)
  | 0, _ => none
  | fuel + 1, endPos =>
    if endPos < MAGIC.length then some none
    else
      let startPos := if endPos ≥ 8192 then endPos - 8192 else 0
      let chunkSize := endPos - startPos
      match scanBack (windowMatch file startPos chunkSize) chunkSize with
      | some i => some (some (startPos + i))
      | none =>
        if startPos = 0 then some none
        else findCookieLoop file fuel (startPos + MAGIC.length - 1)

/-- `PyInstArchive::findCookie`: `some p` when the scan sets
`cookiePos = p`, `none` when it reports a missing cookie. -/
def findCookie (file : List Nat) : Option Nat :=
  (findCookieLoop file (file.length + 1) file.length).getD none

/-- `PyInstArchive::isFileValid`: the file must be at least as long as
the magic. -/
def isFileValid (fileSize : Nat) : Bool :=
  ¬ fileSize < MAGIC.length

/-- A genuine occurrence of the magic at offset `p` of the file. -/
def hasMagicAt (file : List Nat) (p : Nat) : Bool :=
  (file.drop p).take MAGIC.length == MAGIC

/-- A 16-byte file whose only genuine magic occurrence is at offset 1,
but whose last 7 bytes followed (cyclically) by byte 0 also spell the
magic, tripping the cyclic-copy region of the scan buffer. -/
def wrapFalsePositiveFile : List Nat :=
  [14] ++ MAGIC ++ [77, 69, 73, 12, 11, 10, 11]

/-- A 16-byte file containing no occurrence of the magic at all, whose
last 7 bytes followed (cyclically) by byte 0 spell the magic. -/
def noMagicWrapFile : List Nat :=
  [14, 0, 0, 0, 0, 0, 0, 0, 0] ++ [77, 69, 73, 12, 11, 10, 11]

/- ## Version sniffing (`PyInstArchive::determinePyinstallerVersion`) -/

/-- ASCII `tolower` as applied bytewise by
`std::transform(…, ::tolower)`. -/
def tolowerByte (c : Nat) : Nat :=
  if 65 ≤ c ∧ c ≤ 90 then c + 32 else c

/-- The bytes of the token `"python"`. -/
def pythonToken : List Nat := [112, 121, 116, 104, 111, 110]

/-- `needle` occurs in `hay` starting at index `i`. -/
def matchesAt (hay needle : List Nat) (i : Nat) : Bool :=
  (hay.drop i).take needle.length == needle

/-- `std::string::find(needle) != npos` on byte lists. -/
def containsSeq (hay needle : List Nat) : Bool :=
  (List.range (hay.length + 1)).any (matchesAt hay needle)

/-- `PyInstArchive::determinePyinstallerVersion`: read 64 bytes at
`cookiePos + 24`, throw (`error`) on a short read, lowercase, and search
for `"python"`; presence selects version 21, absence version 20. -/
def determinePyinstallerVersion (file : List Nat) (cookiePos : Nat) : Except Unit Nat :=
  let buffer64 := (file.drop (cookiePos + PYINST20_COOKIE_SIZE)).take 64
  if buffer64.length < 64 then .error ()
  else if containsSeq (buffer64.map tolowerByte) pythonToken then .ok 21
  else .ok 20

/-- The header ("cookie") size selected for a sniffed version, as used by
`readArchiveData` and `calculateOverlayInfo`:
`(pyinstVer == 20) ? PYINST20_COOKIE_SIZE : PYINST21_COOKIE_SIZE`. -/
def cookieSizeFor (pyinstVer : Nat) : Nat :=
  if pyinstVer = 20 then PYINST20_COOKIE_SIZE else PYINST21_COOKIE_SIZE

/-- The spec-level notion of a case-insensitive occurrence of
`pythonToken` inside a probe buffer: some window of the buffer is a
per-character variant of the token in which each letter is either the
token's lowercase letter or its uppercase counterpart (32 below it). -/
def tokenOccursAnyCase (buf : List Nat) : Prop :=
  ∃ i v, List.Forall₂ (fun c t => c = t ∨ c + 32 = t) v pythonToken ∧
    (buf.drop i).take pythonToken.length = v

/- ## Offset resolution (`PyInstArchive::calculateOverlayInfo`) -/

/-- Wrapping 64-bit subtraction (`uint64_t` operands below `2^64`). -/
def u64sub (a b : Nat) : Nat :=
  (a + 2 ^ 64 - b % 2 ^ 64) % 2 ^ 64

/-- The resolved layout produced by `calculateOverlayInfo`. -/
structure ResolvedLayout where
  overlaySize : Nat
  overlayPos : Nat
  tableOfContentsPos : Nat
  tableOfContentsSize : Nat
deriving Repr, DecidableEq

/-- `PyInstArchive::calculateOverlayInfo`: derive overlay and TOC
positions from the cookie fields, validate the TOC position against the
file size, retry once with the alternative formula
`cookiePos + cookieSize + toc`, and throw (`error`, caught by
`getCArchiveInfo`, which aborts the whole operation) if both fail.
All intermediate values are `uint64_t`. -/
def calculateOverlayInfo (fileSize cookiePos pyinstVer lengthofPackage toc tocLen : Nat) :
    Except Unit ResolvedLayout :=
  let tailBytes := u64sub (u64sub fileSize cookiePos) (cookieSizeFor pyinstVer)
  let overlaySize := (lengthofPackage + tailBytes) % 2 ^ 64
  let overlayPos := u64sub fileSize overlaySize
  let tableOfContentsPos := (overlayPos + toc) % 2 ^ 64
  let tableOfContentsSize := tocLen
  let altTableOfContentsPos := (cookiePos + cookieSizeFor pyinstVer + toc) % 2 ^ 64
  if tableOfContentsPos ≥ fileSize ∨
      (tableOfContentsPos + tableOfContentsSize) % 2 ^ 64 > fileSize then
    if altTableOfContentsPos ≥ fileSize ∨
        (altTableOfContentsPos + tableOfContentsSize) % 2 ^ 64 > fileSize then
      .error ()
    else .ok ⟨overlaySize, overlayPos, altTableOfContentsPos, tableOfContentsSize⟩
  else .ok ⟨overlaySize, overlayPos, tableOfContentsPos, tableOfContentsSize⟩

/-- Spec model of the offset-resolution step, written from the claim:
`tailBytes = fileSize - cookiePosition - headerSize`,
`overlaySize = packageLength + tailBytes`,
`overlayPosition = fileSize - overlaySize`,
`tocPosition = overlayPosition + tocRelativeOffset` (all `u64` values,
hence wrapping), a position is valid when `tocPosition < fileSize` and
`tocPosition + tocSize <= fileSize`, the fallback formula is
`cookiePosition + headerSize + tocRelativeOffset`, and the operation
fails when both candidates are invalid. -/
def specTocValid (fileSize p tocSize : Nat) : Prop :=
  p < fileSize ∧ (p + tocSize) % 2 ^ 64 ≤ fileSize

instance (fileSize p tocSize : Nat) : Decidable (specTocValid fileSize p tocSize) := by
  unfold specTocValid
  infer_instance

/-- Spec formula `tailBytes = fileSize - cookiePosition - headerSize`. -/
def specTailBytes (fileSize cookiePos headerSize : Nat) : Nat :=
  u64sub (u64sub fileSize cookiePos) headerSize

/-- Spec formula `overlaySize = packageLength + tailBytes`. -/
def specOverlaySize (fileSize cookiePos headerSize packageLength : Nat) : Nat :=
  (packageLength + specTailBytes fileSize cookiePos headerSize) % 2 ^ 64

/-- Spec formula `overlayPosition = fileSize - overlaySize`. -/
def specOverlayPos (fileSize cookiePos headerSize packageLength : Nat) : Nat :=
  u64sub fileSize (specOverlaySize fileSize cookiePos headerSize packageLength)

/-- The primary spec candidate
`tocPosition = overlayPosition + tocRelativeOffset`. -/
def specPrimaryTocPos (fileSize cookiePos headerSize packageLength tocRelativeOffset : Nat) :
    Nat :=
  (specOverlayPos fileSize cookiePos headerSize packageLength + tocRelativeOffset) % 2 ^ 64

/-- The fallback spec candidate for the TOC position. -/
def specFallbackTocPos (cookiePos headerSize tocRelativeOffset : Nat) : Nat :=
  (cookiePos + headerSize + tocRelativeOffset) % 2 ^ 64

/- ## The stream model and the TOC scan (`PyInstArchive::parseTOC`) -/

/-- The shared `std::ifstream`: a byte file, a read cursor, and the fail
bit.  A read past end-of-file extracts what is available, leaves the
cursor at end-of-file and raises the fail bit.  The fail bit persists
across operations: `seekg` does not clear it, so a short read in one
phase poisons every later read on the same handle. -/
structure Stream where
  file : List Nat
  pos : Nat
  failed : Bool
deriving Repr, DecidableEq

/-- `fPtr.seekg(pos, std::ios::beg)`: positions the cursor, but fails
(and moves nothing) when the fail bit is set — `seekg` clears only the
eof bit, never `failbit`. -/
def seekTo (st : Stream) (pos : Nat) : Stream :=
  if st.failed then st else ⟨st.file, pos, false⟩

/-- `fPtr.read(buf, n)` followed by the caller's `gcount() < n` check:
`some` exactly when `n` fresh bytes were extracted.  Used by the header
and TOC readers, which all check `gcount()` and treat a short read as
failed, so the partially extracted bytes are not modelled here. -/
def readBytes (st : Stream) (n : Nat) : Option (List Nat) × Stream :=
  if st.failed then (none, st)
  else if st.pos + n ≤ st.file.length then
    (some ((st.file.drop st.pos).take n), ⟨st.file, st.pos + n, false⟩)
  else (none, ⟨st.file, st.file.length, true⟩)

/-- `buf.resize(n)` followed by `fPtr.read(buf.data(), n)` with no
`gcount()` check (the extraction payload read): the resize zero-fills
the buffer, the read overwrites the prefix it can extract, and a short
or failed read leaves the zero padding in place while raising the fail
bit on the shared stream. -/
def readBytesUnchecked (st : Stream) (n : Nat) : List Nat × Stream :=
  if st.failed then (List.replicate n 0, st)
  else if st.pos + n ≤ st.file.length then
    ((st.file.drop st.pos).take n, ⟨st.file, st.pos + n, false⟩)
  else
    ((st.file.drop st.pos).take n
        ++ List.replicate (n - ((st.file.drop st.pos).take n).length) 0,
      ⟨st.file, st.file.length, true⟩)

/-- A decoded TOC entry (`struct CTOCEntry`; all integer fields are the
C++ `uint32_t`/`uint8_t`/`char` fields, the name is the byte content of
the `std::string`). -/
structure CTOCEntry where
  position : Nat
  cmprsdDataSize : Nat
  uncmprsdDataSize : Nat
  cmprsFlag : Nat
  typeCmprsData : Nat
  name : List Nat
deriving Repr, DecidableEq

/-- `PyInstArchive::sizeofEntry`: the fixed field width
`4 + 4 + 4 + 4 + 1 + 1 = 18` used both as the minimum entry size and as
the amount subtracted from `entrySize` to obtain the name length. -/
def sizeofEntry : Nat := 4 + 4 + 4 + 4 + 1 + 1

/-- `PyInstArchive::readEntrySize`: read a 4-byte big-endian entry size
and validate `sizeofEntry ≤ entrySize ≤ tableOfContentsSize`; `none`
makes `parseTOC` leave its loop. -/
def readEntrySize (tableOfContentsSize : Nat) (st : Stream) : Option (Nat × Stream) :=
  match readBytes st 4 with
  | (none, _) => none
  | (some bs, st1) =>
    let entrySize := swapBytes (leU32 bs)
    if entrySize < sizeofEntry ∨ entrySize > tableOfContentsSize then none
    else some (entrySize, st1)

/-- `PyInstArchive::readEntryFields`: read the fixed 14-byte field block
(entry position, compressed size, uncompressed size as big-endian
`uint32_t`, compression flag and type byte) and then the
`entrySize - sizeofEntry` name bytes.  `none` models the thrown
`std::runtime_error`, which `parseTOC` catches. -/
def readEntryFields (entrySize : Nat) (st : Stream) :
    Option (Nat × Nat × Nat × Nat × Nat × List Nat) × Stream :=
  if entrySize < sizeofEntry then (none, st)
  else
    match readBytes st 14 with
    | (none, st1) => (none, st1)
    | (some buf, st1) =>
      match readBytes st1 (entrySize - sizeofEntry) with
      | (none, st2) => (none, st2)
      | (some nameBuffer, st2) =>
        (some (swapBytes (leU32 buf), swapBytes (leU32 (buf.drop 4)),
          swapBytes (leU32 (buf.drop 8)), buf.getD 12 0 % 2 ^ 8,
          buf.getD 13 0 % 2 ^ 8, nameBuffer), st2)

/-- Decimal digit bytes of `n` (the fuel argument makes the recursion
structural; `n + 1` units always suffice), i.e. `std::to_string`. -/
def decimalDigits : Nat → Nat → List Nat
  | 0, _ => []
  | fuel + 1, n =>
    if n < 10 then [n + 48]
    else decimalDigits fuel (n / 10) ++ [n % 10 + 48]

/-- `std::to_string(n)` as a byte list. -/
def toDecimalBytes (n : Nat) : List Nat :=
  decimalDigits (n + 1) n

/-- The bytes of the literal `"unnamed_"`. -/
def unnamedPrefix : List Nat := [117, 110, 110, 97, 109, 101, 100, 95]

/-- `PyInstArchive::decodeEntryName`: strip NULs, test validity
(non-empty, not starting with a path separator, some non-whitespace
character, all characters printable ASCII — a signed `char` outside
`[32,126]` fails the `c < 32 || c > 126` test, which on byte values is
`32 ≤ c ∧ c ≤ 126`), replace an invalid name by
`"unnamed_" + to_string(parsedLen) + "_" + to_string(counter++)` with
the function-local `static uint32_t counter` threaded through
explicitly, and finally replace every `'.'` by `'_'`. -/
def decodeEntryName (nameBuffer : List Nat) (parsedLen counter : Nat) : List Nat × Nat :=
  let name := nameBuffer.filter fun c => c ≠ 0
  let isValid : Bool :=
    !name.isEmpty && name.getD 0 0 != 47 && name.getD 0 0 != 92
      && name.any (fun c => !(c == 32 || c == 9 || c == 10 || c == 13))
      && name.all (fun c => decide (32 ≤ c) && decide (c ≤ 126))
  let pick : List Nat × Nat :=
    if isValid then (name, counter)
    else (unnamedPrefix ++ toDecimalBytes parsedLen ++ [95] ++ toDecimalBytes counter,
      (counter + 1) % 2 ^ 32)
  (pick.1.map fun c => if c = 46 then 95 else c, pick.2)

/-- `PyInstArchive::addTOCEntry`: append `".pyc"` to extension-less
script/module entries (`'s'`/`'m'`) and build the `CTOCEntry` whose
`uint32_t` position is `overlayPos + entryPos`. -/
def addTOCEntry (overlayPos entryPos cmprsdDataSize uncmprsdDataSize cmprsFlag
    typeCmprsData : Nat) (name : List Nat) : CTOCEntry :=
  let name2 :=
    if (typeCmprsData = 115 ∨ typeCmprsData = 109) ∧ name.all (fun c => c ≠ 46) then
      name ++ [46, 112, 121, 99]
    else name
  ⟨(overlayPos + entryPos) % 2 ^ 32, cmprsdDataSize, uncmprsdDataSize,
    cmprsFlag, typeCmprsData, name2⟩

/-- The `while (parsedLen < tableOfContentsSize)` loop of
`PyInstArchive::parseTOC`, with explicit fuel (`none` = fuel ran out;
`file.length + 2` units always suffice, see the termination theorem).
An unreadable or invalid entry size leaves the loop; a caught read
failure advances `parsedLen` (a `uint32_t`) by `entrySize` and
continues; a decoded entry is appended and `parsedLen` advanced the
same way. -/
def parseTOCFuel : Nat → Nat → Nat → Stream → Nat → Nat → List CTOCEntry →
    Option (List CTOCEntry × Nat)
  | 0, _, _, _, _, _, _ => none
  | fuel + 1, tableOfContentsSize, overlayPos, st, parsedLen, counter, acc =>
    if parsedLen < tableOfContentsSize then
      match readEntrySize tableOfContentsSize st with
      | none => some (acc, counter)
      | some (entrySize, st1) =>
        match readEntryFields entrySize st1 with
        | (none, st2) =>
          parseTOCFuel fuel tableOfContentsSize overlayPos st2
            ((parsedLen + entrySize) % 2 ^ 32) counter acc
        | (some (entryPos, cmprsdDataSize, uncmprsdDataSize, cmprsFlag,
            typeCmprsData, nameBuffer), st2) =>
          let dn := decodeEntryName nameBuffer parsedLen counter
          let entry := addTOCEntry overlayPos entryPos cmprsdDataSize
            uncmprsdDataSize cmprsFlag typeCmprsData dn.1
          parseTOCFuel fuel tableOfContentsSize overlayPos st2
            ((parsedLen + entrySize) % 2 ^ 32) dn.2 (acc ++ [entry])
    else some (acc, counter)

/-- A single `PyInstArchive::parseTOC` run on a fresh (or healthy)
handle: seek to the TOC position, clear the list and run the scan loop,
returning the decoded list and the final value of the static
fallback-name counter.  The fail bit the run leaves on the shared handle
— which `seekg` never clears, so it carries into any later run — is
reported by `parseTOCRun` below. -/
def parseTOC (file : List Nat) (tableOfContentsPos tableOfContentsSize overlayPos
    counter : Nat) : List CTOCEntry × Nat :=
  (parseTOCFuel (file.length + 2) tableOfContentsSize overlayPos
    ⟨file, tableOfContentsPos, false⟩ 0 counter []).getD ([], counter)

/-- `PyInstArchive::readEntrySize`, reporting the stream it leaves
behind: the plain `readEntrySize` drops the stream on failure because
`parseTOC` then leaves its loop, but the handle itself — with its fail
bit — persists into later phases and later `parseTOC` calls, so the
session-chaining embedding keeps it.  The two readers agree
(`readEntrySize_eq_stream`). -/
def readEntrySizeStream (tableOfContentsSize : Nat) (st : Stream) :
    Option Nat × Stream :=
  match readBytes st 4 with
  | (none, st1) => (none, st1)
  | (some bs, st1) =>
    let entrySize := swapBytes (leU32 bs)
    if entrySize < sizeofEntry ∨ entrySize > tableOfContentsSize then (none, st1)
    else (some entrySize, st1)

/-- The `parseTOC` scan loop again, now also reporting the stream it
leaves behind — the same loop as `parseTOCFuel`
(`parseTOCFuel_eq_stream`), needed because the shared handle's fail bit
survives the run. -/
def parseTOCFuelStream : Nat → Nat → Nat → Stream → Nat → Nat → List CTOCEntry →
    Option (List CTOCEntry × Nat × Stream)
  | 0, _, _, _, _, _, _ => none
  | fuel + 1, tableOfContentsSize, overlayPos, st, parsedLen, counter, acc =>
    if parsedLen < tableOfContentsSize then
      match readEntrySizeStream tableOfContentsSize st with
      | (none, st1) => some (acc, counter, st1)
      | (some entrySize, st1) =>
        match readEntryFields entrySize st1 with
        | (none, st2) =>
          parseTOCFuelStream fuel tableOfContentsSize overlayPos st2
            ((parsedLen + entrySize) % 2 ^ 32) counter acc
        | (some (entryPos, cmprsdDataSize, uncmprsdDataSize, cmprsFlag,
            typeCmprsData, nameBuffer), st2) =>
          let dn := decodeEntryName nameBuffer parsedLen counter
          let entry := addTOCEntry overlayPos entryPos cmprsdDataSize
            uncmprsdDataSize cmprsFlag typeCmprsData dn.1
          parseTOCFuelStream fuel tableOfContentsSize overlayPos st2
            ((parsedLen + entrySize) % 2 ^ 32) dn.2 (acc ++ [entry])
    else some (acc, counter, st)

/-- One `PyInstArchive::parseTOC` call against the live handle:
`seekg` to the TOC position (a no-op when the fail bit is already set),
clear the list and run the scan loop.  Returns the decoded list, the
final static-counter value and the stream the run leaves behind; the
next `parseTOC` call on the same handle (the unpack path parses the TOC
a second time) starts from exactly that stream.  On a fresh handle the
list and counter are those of `parseTOC`. -/
def parseTOCRun (st : Stream) (tableOfContentsPos tableOfContentsSize overlayPos
    counter : Nat) : List CTOCEntry × Nat × Stream :=
  (parseTOCFuelStream (st.file.length + 2) tableOfContentsSize overlayPos
    (seekTo st tableOfContentsPos) 0 counter []).getD
    ([], counter, seekTo st tableOfContentsPos)

/- ## Synthetic archives (for the round-trip claims) -/

/-- The data written into a synthetically constructed archive for one
TOC entry. -/
structure EntrySpec where
  entryPos : Nat
  cmprsdDataSize : Nat
  uncmprsdDataSize : Nat
  cmprsFlag : Nat
  typeCode : Nat
  name : List Nat
deriving Repr, DecidableEq

/-- Wire encoding of one TOC entry: big-endian
`entrySize = sizeofEntry + |name|` (the size field counts itself), the
three big-endian `uint32_t` fields, the flag and type bytes, then the
name bytes. -/
def encodeEntry (e : EntrySpec) : List Nat :=
  beBytes32 (sizeofEntry + e.name.length) ++ beBytes32 e.entryPos
    ++ beBytes32 e.cmprsdDataSize ++ beBytes32 e.uncmprsdDataSize
    ++ [e.cmprsFlag % 2 ^ 8, e.typeCode % 2 ^ 8] ++ e.name

/-- Wire encoding of a whole TOC. -/
def encodeTOC (es : List EntrySpec) : List Nat :=
  (es.map encodeEntry).flatten

/-- The `CTOCEntry` the decoder is expected to produce for a spec. -/
def decodedEntry (overlayPos : Nat) (e : EntrySpec) : CTOCEntry :=
  ⟨(overlayPos + e.entryPos) % 2 ^ 32, e.cmprsdDataSize, e.uncmprsdDataSize,
    e.cmprsFlag, e.typeCode, e.name⟩

/-- A well-formed synthetic entry whose name survives decoding intact:
in-range field values, a kind code other than script/module, and a
non-empty name of printable non-special characters (no NUL, no `'.'`,
not starting with a path separator). -/
def GoodSpec (e : EntrySpec) : Prop :=
  e.entryPos < 2 ^ 32 ∧ e.cmprsdDataSize < 2 ^ 32 ∧ e.uncmprsdDataSize < 2 ^ 32 ∧
    e.cmprsFlag < 2 ^ 8 ∧ e.typeCode < 2 ^ 8 ∧ e.typeCode ≠ 115 ∧ e.typeCode ≠ 109 ∧
    e.name ≠ [] ∧ (∀ c ∈ e.name, 33 ≤ c ∧ c ≤ 126 ∧ c ≠ 46) ∧
    e.name.getD 0 0 ≠ 47 ∧ e.name.getD 0 0 ≠ 92

instance (e : EntrySpec) : Decidable (GoodSpec e) := by
  unfold GoodSpec
  infer_instance

/- ## Extraction (`PyInstArchive::decompressAndExtractFile` and the pool) -/

/-- `CTOCEntry::isCompressed` (`src/pyinstarchive.h`):
`cmprsFlag != 0`. -/
def isCompressedEntry (e : CTOCEntry) : Bool :=
  e.cmprsFlag != 0

/-- Outcome of extracting one entry.  `decompressionFailed` is the
`inflate(…) != Z_STREAM_END` path, after which the task returns without
writing. -/
inductive ExtractResult where
  | ok (bytes : List Nat)
  | decompressionFailed
deriving Repr, DecidableEq

/-- `PyInstArchive::decompressAndExtractFile`, with zlib as an oracle
`inflate : compressed bytes → declared uncompressed size → Option output`
(`some` exactly when `inflateInit` succeeds and `inflate(&strm, Z_FINISH)`
returns `Z_STREAM_END` into the caller-sized buffer, `none` otherwise).
Under the file lock the task seeks the shared handle to `position`,
resizes the buffer to `cmprsdDataSize` (zero-filling it) and reads with
no `gcount()` check — a short or failed read silently leaves the zero
padding in the buffer and its fail bit on the shared stream, which every
later read on the handle inherits.  A compressed entry's buffer is then
inflated; a stored entry's bytes pass through. -/
def decompressAndExtractFile (inflate : List Nat → Nat → Option (List Nat))
    (st : Stream) (e : CTOCEntry) : ExtractResult × Stream :=
  let rd := readBytesUnchecked (seekTo st e.position) e.cmprsdDataSize
  (if isCompressedEntry e then
      match inflate rd.1 e.uncmprsdDataSize with
      | some out => .ok out
      | none => .decompressionFailed
    else .ok rd.1, rd.2)

/-- The result component of `decompressAndExtractFile` when the shared
stream is healthy and the entry's payload slice lies inside the file:
the locked read is then a pure slice of the file
(`decompressAndExtractFile_in_bounds`).  The pool-determinism machinery
reasons in this abstraction. -/
def extractResultPure (inflate : List Nat → Nat → Option (List Nat))
    (file : List Nat) (e : CTOCEntry) : ExtractResult :=
  let compressedData := (file.drop e.position).take e.cmprsdDataSize
  if isCompressedEntry e then
    match inflate compressedData e.uncmprsdDataSize with
    | some out => .ok out
    | none => .decompressionFailed
  else .ok compressedData

/-- An extraction run over an entry list in completion order, threading
the shared stream from task to task: the successful outputs (each
entry's name with the bytes written to `outputDir/name`, in run order)
and the stream the run leaves behind. -/
def extractRun (inflate : List Nat → Nat → Option (List Nat)) :
    Stream → List CTOCEntry → List (List Nat × List Nat) × Stream
  | st, [] => ([], st)
  | st, e :: es =>
    let r := decompressAndExtractFile inflate st e
    let rest := extractRun inflate r.2 es
    (match r.1 with
     | .ok bytes => (e.name, bytes) :: rest.1
     | .decompressionFailed => rest.1, rest.2)

/-- What task `i` of a pool run writes when it runs against a healthy
stream with its payload slice in bounds: the name and bytes of entry `i`
when it extracts, nothing when it fails. -/
def taskOutput (inflate : List Nat → Nat → Option (List Nat)) (file : List Nat)
    (entries : List CTOCEntry) (i : Nat) : Option (List Nat × List Nat) :=
  match entries[i]? with
  | none => none
  | some e =>
    match extractResultPure inflate file e with
    | .ok bytes => some (e.name, bytes)
    | .decompressionFailed => none

/-- Task `i` completing against an output tree (a map from relative path
to written bytes) in the pure abstraction: a successful task overwrites
its entry's path. -/
def applyTask (inflate : List Nat → Nat → Option (List Nat)) (file : List Nat)
    (entries : List CTOCEntry) (fs : List Nat → Option (List Nat)) (i : Nat) :
    List Nat → Option (List Nat) :=
  match taskOutput inflate file entries i with
  | some nb => fun n => if n = nb.1 then some nb.2 else fs n
  | none => fs

/-- Task `i` completing against the output tree and the shared stream:
the faithful pool step, built on the stream-threading
`decompressAndExtractFile`. -/
def applyTaskShared (inflate : List Nat → Nat → Option (List Nat))
    (entries : List CTOCEntry)
    (acc : (List Nat → Option (List Nat)) × Stream) (i : Nat) :
    (List Nat → Option (List Nat)) × Stream :=
  match entries[i]? with
  | none => acc
  | some e =>
    let r := decompressAndExtractFile inflate acc.2 e
    (match r.1 with
     | .ok bytes => fun n => if n = e.name then some bytes else acc.1 n
     | .decompressionFailed => acc.1, r.2)

/-- The output tree and final stream after a pool run whose tasks
complete in the order `sched`.  `MultiThreadedFileExtract` enqueues one
task per entry; a pool with one worker completes them in queue order
`[0, …, n-1]`, and a pool with several workers may realize any
permutation of that order; the mutex serializes the tasks' locked reads
on the shared stream in the same order. -/
def runSchedule (inflate : List Nat → Nat → Option (List Nat)) (st : Stream)
    (entries : List CTOCEntry) (sched : List Nat) :
    (List Nat → Option (List Nat)) × Stream :=
  sched.foldl (applyTaskShared inflate entries) (fun _ => none, st)

/-- Entry `i` writes path `name` (used to locate the last writer of a
path in a completion schedule). -/
def writesTo (inflate : List Nat → Nat → Option (List Nat)) (file : List Nat)
    (entries : List CTOCEntry) (name : List Nat) (i : Nat) : Bool :=
  match taskOutput inflate file entries i with
  | some nb => nb.1 == name
  | none => false

/-- An inflate oracle that always fails (the concrete entries it is used
with are stored uncompressed, so it is never consulted on them). -/
def inflateNever : List Nat → Nat → Option (List Nat) := fun _ _ => none

/- ## Concrete fixtures for the individual claims -/

/-- A well-formed synthetic entry: name `"a"`, one data byte at overlay
offset 0. -/
def plainSpecA : EntrySpec := ⟨0, 1, 1, 0, 100, [97]⟩

/-- A well-formed synthetic entry: name `"b"`, one data byte at overlay
offset 1. -/
def plainSpecB : EntrySpec := ⟨1, 1, 1, 0, 100, [98]⟩

/-- A second entry that reuses the name `"a"` of `plainSpecA` but holds
different payload bytes. -/
def dupSpecA : EntrySpec := ⟨1, 1, 1, 0, 100, [97]⟩

/-- An entry whose single name byte is NUL, forcing the synthesized
fallback name. -/
def nulNameSpec : EntrySpec := ⟨0, 1, 1, 0, 100, [0]⟩

/-- An entry named `"a.py"`. -/
def dottedNameSpec : EntrySpec := ⟨0, 4, 4, 0, 100, [97, 46, 112, 121]⟩

/-- A TOC whose first record declares the invalid entry size 5 (the four
size bytes plus one byte of junk) and is followed by the well-formed
record of `plainSpecA`. -/
def malformedThenGoodTOC : List Nat :=
  beBytes32 5 ++ [99] ++ encodeEntry plainSpecA

/-- A two-byte payload region (`'A'`, `'B'`) followed by a TOC declaring
two entries that both extract to the name `"a"`. -/
def dupNameArchive : List Nat :=
  [65, 66] ++ encodeTOC [plainSpecA, dupSpecA]

/-- The entry list `parseTOC` decodes from `dupNameArchive`. -/
def dupNameEntries : List CTOCEntry :=
  [⟨0, 1, 1, 0, 100, [97]⟩, ⟨1, 1, 1, 0, 100, [97]⟩]

/-- A TOC whose first record is the well-formed `plainSpecA` record and
whose second record declares entry size 20 but is truncated after two of
its bytes, so the second record's field read runs past end-of-file and
raises the fail bit. -/
def truncatedTOC : List Nat :=
  encodeEntry plainSpecA ++ beBytes32 20 ++ [0, 0]

/-- A stored one-byte entry named `"a"` whose payload read (position 0,
one byte) is in bounds on a two-byte file. -/
def plainEntryA : CTOCEntry := ⟨0, 1, 1, 0, 100, [97]⟩

/-- A compressed entry named `"c"` whose declared payload
`[1, 1 + 4)` overruns a two-byte file: its locked read is short, which
zero-pads the buffer and raises the fail bit on the shared stream. -/
def shortReadEntry : CTOCEntry := ⟨1, 4, 4, 1, 100, [99]⟩

/-- Two entries with pairwise distinct names for the file `[65, 66]`:
the in-bounds `plainEntryA` and the overrunning `shortReadEntry`. -/
def poisonEntries : List CTOCEntry := [plainEntryA, shortReadEntry]

/- ## Helper lemmas -/

theorem swapBytes_of_bytes (a b c d : Nat)
    (ha : a < 256) (hb : b < 256) (hc : c < 256) (hd : d < 256) :
    swapBytes (a + b * 2 ^ 8 + c * 2 ^ 16 + d * 2 ^ 24)
      = d + c * 2 ^ 8 + b * 2 ^ 16 + a * 2 ^ 24 := by
  have s0 : (a + b * 2 ^ 8 + c * 2 ^ 16 + d * 2 ^ 24) / 2 ^ 24 % 2 ^ 8 = d := by omega
  have s1 : (a + b * 2 ^ 8 + c * 2 ^ 16 + d * 2 ^ 24) / 2 ^ 16 % 2 ^ 8 = c := by omega
  have s2 : (a + b * 2 ^ 8 + c * 2 ^ 16 + d * 2 ^ 24) / 2 ^ 8 % 2 ^ 8 = b := by omega
  have s3 : (a + b * 2 ^ 8 + c * 2 ^ 16 + d * 2 ^ 24) % 2 ^ 8 = a := by omega
  rw [swapBytes, s0, s1, s2, s3]

theorem swapBytes_leU32_beBytes32 (v : Nat) (hv : v < 2 ^ 32) :
    swapBytes (leU32 (beBytes32 v)) = v := by
  obtain ⟨a, b, c, d, ha, hb, hc, hd, hv2⟩ :
      ∃ a b c d, a < 256 ∧ b < 256 ∧ c < 256 ∧ d < 256 ∧
        v = a * 2 ^ 24 + b * 2 ^ 16 + c * 2 ^ 8 + d :=
    ⟨v / 2 ^ 24, v / 2 ^ 16 % 256, v / 2 ^ 8 % 256, v % 256,
      by omega, by omega, by omega, by omega, by omega⟩
  subst hv2
  have larg : leU32 (beBytes32 (a * 2 ^ 24 + b * 2 ^ 16 + c * 2 ^ 8 + d))
      = a + b * 2 ^ 8 + c * 2 ^ 16 + d * 2 ^ 24 := by
    simp only [leU32, beBytes32, List.getD, List.get?, Option.getD_some]
    have l0 : (a * 2 ^ 24 + b * 2 ^ 16 + c * 2 ^ 8 + d) / 2 ^ 24 % 2 ^ 8 % 2 ^ 8 = a := by
      omega
    have l1 : (a * 2 ^ 24 + b * 2 ^ 16 + c * 2 ^ 8 + d) / 2 ^ 16 % 2 ^ 8 % 2 ^ 8 = b := by
      omega
    have l2 : (a * 2 ^ 24 + b * 2 ^ 16 + c * 2 ^ 8 + d) / 2 ^ 8 % 2 ^ 8 % 2 ^ 8 = c := by
      omega
    have l3 : (a * 2 ^ 24 + b * 2 ^ 16 + c * 2 ^ 8 + d) % 2 ^ 8 % 2 ^ 8 = d := by
      omega
    rw [l0, l1, l2, l3]
  rw [larg, swapBytes_of_bytes a b c d ha hb hc hd]
  ring

theorem hasMagicAt_length_le {file : List Nat} {p : Nat}
    (h : hasMagicAt file p = true) : p + 8 ≤ file.length := by
  unfold hasMagicAt at h
  rw [beq_iff_eq] at h
  have hlen : ((file.drop p).take MAGIC.length).length = MAGIC.length := by
    rw [h]
  rw [List.length_take, List.length_drop] at hlen
  simp only [MAGIC, List.length_cons, List.length_nil] at hlen ⊢
  omega

theorem tolowerByte_eq_iff {c t : Nat} (h97 : 97 ≤ t) (h122 : t ≤ 122) :
    tolowerByte c = t ↔ (c = t ∨ c + 32 = t) := by
  unfold tolowerByte
  split_ifs with h <;> omega

theorem forall₂_congr_right {R S : Nat → Nat → Prop} :
    ∀ (w v : List Nat), (∀ a b, b ∈ w → (R a b ↔ S a b)) →
      (List.Forall₂ R v w ↔ List.Forall₂ S v w) := by
  intro w
  induction w with
  | nil =>
    intro v _
    simp [List.forall₂_nil_right_iff]
  | cons b w ih =>
    intro v h
    cases v with
    | nil =>
      constructor <;> intro hf <;> cases hf
    | cons a v =>
      rw [List.forall₂_cons, List.forall₂_cons, h a b (List.mem_cons_self b w),
        ih v fun x y hy => h x y (List.mem_cons_of_mem b hy)]

theorem containsSeq_lower_iff (buf : List Nat) :
    containsSeq (buf.map tolowerByte) pythonToken = true ↔ tokenOccursAnyCase buf := by
  have hrng : ∀ a b : Nat, b ∈ pythonToken →
      ((fun c t => tolowerByte c = t) a b ↔ (fun c t => c = t ∨ c + 32 = t) a b) := by
    intro a b hb
    fin_cases hb <;> exact tolowerByte_eq_iff (by omega) (by omega)
  unfold containsSeq
  rw [List.any_eq_true]
  constructor
  · rintro ⟨i, _, hm⟩
    unfold matchesAt at hm
    rw [beq_iff_eq, ← List.map_drop, ← List.map_take, ← List.forall₂_eq_eq_eq,
      List.forall₂_map_left_iff, forall₂_congr_right pythonToken _ hrng] at hm
    exact ⟨i, (buf.drop i).take pythonToken.length, hm, rfl⟩
  · rintro ⟨i, v, hrel, hslice⟩
    have hlenv : v.length = pythonToken.length := hrel.length_eq
    have hlenslice : i + pythonToken.length ≤ buf.length := by
      have := congrArg List.length hslice
      rw [List.length_take, List.length_drop] at this
      have hp : pythonToken.length = 6 := by decide
      omega
    refine ⟨i, List.mem_range.mpr ?_, ?_⟩
    · rw [List.length_map]
      omega
    · unfold matchesAt
      rw [beq_iff_eq, ← List.map_drop, ← List.map_take, hslice, ← List.forall₂_eq_eq_eq,
        List.forall₂_map_left_iff, forall₂_congr_right pythonToken _ hrng]
      exact hrel

theorem readBytes_some {st : Stream} {n : Nat} {bs : List Nat} {st1 : Stream}
    (h : readBytes st n = (some bs, st1)) :
    st.failed = false ∧ st.pos + n ≤ st.file.length ∧
      st1 = ⟨st.file, st.pos + n, false⟩ ∧ bs = (st.file.drop st.pos).take n := by
  unfold readBytes at h
  split_ifs at h with h1 h2
  · simp at h
  · rw [Prod.mk.injEq] at h
    obtain ⟨hb, hs⟩ := h
    exact ⟨by simpa using h1, h2, hs.symm, (Option.some.inj hb).symm⟩
  · simp at h

theorem readBytes_none {st : Stream} {n : Nat} {st1 : Stream}
    (h : readBytes st n = (none, st1)) :
    st1.file = st.file ∧ st1.failed = true := by
  unfold readBytes at h
  split_ifs at h with h1 h2
  · cases h
    exact ⟨rfl, by simpa using h1⟩
  · cases h
  · cases h
    exact ⟨rfl, rfl⟩

theorem readEntrySize_of_failed {st : Stream} (tableOfContentsSize : Nat)
    (h : st.failed = true) : readEntrySize tableOfContentsSize st = none := by
  unfold readEntrySize readBytes
  rw [if_pos h]

theorem readEntrySize_some {tableOfContentsSize : Nat} {st : Stream} {entrySize : Nat}
    {st1 : Stream} (h : readEntrySize tableOfContentsSize st = some (entrySize, st1)) :
    sizeofEntry ≤ entrySize ∧ entrySize ≤ tableOfContentsSize ∧
      st.failed = false ∧ st.pos + 4 ≤ st.file.length ∧
      st1 = ⟨st.file, st.pos + 4, false⟩ ∧
      entrySize = swapBytes (leU32 ((st.file.drop st.pos).take 4)) := by
  unfold readEntrySize at h
  cases hrb : readBytes st 4 with
  | mk b? st2 =>
    rw [hrb] at h
    cases b? with
    | none => cases h
    | some bs =>
      simp only at h
      split_ifs at h with hv
      cases h
      obtain ⟨hf, hle, hst, hbs⟩ := readBytes_some hrb
      push_neg at hv
      exact ⟨hv.1, hv.2, hf, hle, hst, by rw [hbs]⟩

theorem readEntryFields_cases (entrySize : Nat) (st : Stream) :
    (readEntryFields entrySize st).2.file = st.file ∧
      ((readEntryFields entrySize st).2 = st ∨
        (readEntryFields entrySize st).2.failed = true ∨
        (st.failed = false ∧ st.pos + 1 ≤ (readEntryFields entrySize st).2.pos ∧
          (readEntryFields entrySize st).2.pos ≤ st.file.length ∧
          (readEntryFields entrySize st).2.failed = false)) := by
  unfold readEntryFields
  split_ifs with h1
  · exact ⟨rfl, Or.inl rfl⟩
  · split
    next st1 heq =>
      obtain ⟨hf, hfld⟩ := readBytes_none heq
      exact ⟨hf, Or.inr (Or.inl hfld)⟩
    next buf st1 heq =>
      obtain ⟨hf0, hle0, hst1, _⟩ := readBytes_some heq
      split
      next st2 heq2 =>
        obtain ⟨hf2, hfld2⟩ := readBytes_none heq2
        exact ⟨by rw [hf2, hst1], Or.inr (Or.inl hfld2)⟩
      next nameBuffer st2 heq2 =>
        obtain ⟨hf2, hle2, hst2, _⟩ := readBytes_some heq2
        rw [hst1] at hle2 hst2
        simp only at hle2 hst2
        rw [hst2]
        exact ⟨rfl, Or.inr (Or.inr ⟨hf0, by simp; omega, by simpa using hle2, rfl⟩)⟩

theorem parseTOCFuel_isSome (fuel : Nat) :
    ∀ (tableOfContentsSize overlayPos : Nat) (st : Stream) (parsedLen counter : Nat)
      (acc : List CTOCEntry), 1 ≤ fuel →
      (st.failed = false → st.file.length + 2 ≤ fuel + st.pos) →
      (parseTOCFuel fuel tableOfContentsSize overlayPos st parsedLen counter acc).isSome
        = true := by
  induction fuel with
  | zero => intro _ _ _ _ _ _ h1 _; omega
  | succ fuel ih =>
    intro tableOfContentsSize overlayPos st parsedLen counter acc _ h2
    by_cases hpl : parsedLen < tableOfContentsSize
    · cases hre : readEntrySize tableOfContentsSize st with
      | none => simp [parseTOCFuel, hpl, hre]
      | some es_st1 =>
        obtain ⟨entrySize, st1⟩ := es_st1
        obtain ⟨h18, _, hf, hle, hst1, _⟩ := readEntrySize_some hre
        have hfuel : 5 ≤ fuel := by
          have := h2 hf
          omega
        cases hrf : readEntryFields entrySize st1 with
        | mk r st2 =>
          obtain ⟨hfile, hcases⟩ := readEntryFields_cases entrySize st1
          rw [hrf] at hfile hcases
          simp only at hfile hcases
          have hlen2 : st2.file = st.file := by rw [hfile, hst1]
          have hnext : (st2.failed = false → st2.file.length + 2 ≤ fuel + st2.pos) := by
            intro hf2
            rw [hlen2]
            rcases hcases with hA | hB | hC
            · rw [hA, hst1]
              dsimp only
              have := h2 hf
              omega
            · rw [hB] at hf2; cases hf2
            · rw [hst1] at hC
              dsimp only at hC
              have := h2 hf
              omega
          cases r with
          | none =>
            simp only [parseTOCFuel, if_pos hpl, hre, hrf]
            exact ih _ _ _ _ _ _ (by omega) hnext
          | some flds =>
            obtain ⟨a1, a2, a3, a4, a5, a6⟩ := flds
            simp only [parseTOCFuel, if_pos hpl, hre, hrf]
            exact ih _ _ _ _ _ _ (by omega) hnext
    · simp [parseTOCFuel, hpl]

theorem seekTo_file (st : Stream) (p : Nat) : (seekTo st p).file = st.file := by
  unfold seekTo
  split <;> rfl

theorem readEntrySize_eq_stream (tableOfContentsSize : Nat) (st : Stream) :
    readEntrySize tableOfContentsSize st
      = match readEntrySizeStream tableOfContentsSize st with
        | (some entrySize, st1) => some (entrySize, st1)
        | (none, _) => none := by
  simp only [readEntrySize, readEntrySizeStream]
  cases readBytes st 4 with
  | mk b? st1 =>
    cases b? with
    | none => rfl
    | some bs =>
      dsimp only
      split_ifs <;> rfl

theorem readEntrySizeStream_file (tableOfContentsSize : Nat) (st : Stream) :
    (readEntrySizeStream tableOfContentsSize st).2.file = st.file := by
  simp only [readEntrySizeStream]
  cases hrb : readBytes st 4 with
  | mk b? st1 =>
    have hf : st1.file = st.file := by
      cases b? with
      | none => exact (readBytes_none hrb).1
      | some bs => rw [(readBytes_some hrb).2.2.1]
    cases b? with
    | none => exact hf
    | some bs =>
      dsimp only
      split_ifs <;> exact hf

theorem parseTOCFuel_eq_stream :
    ∀ (fuel tableOfContentsSize overlayPos : Nat) (st : Stream)
      (parsedLen counter : Nat) (acc : List CTOCEntry),
      parseTOCFuel fuel tableOfContentsSize overlayPos st parsedLen counter acc
        = (parseTOCFuelStream fuel tableOfContentsSize overlayPos st parsedLen
            counter acc).map fun r => (r.1, r.2.1) := by
  intro fuel
  induction fuel with
  | zero => intro _ _ _ _ _ _; rfl
  | succ f ih =>
    intro tableOfContentsSize overlayPos st parsedLen counter acc
    by_cases hpl : parsedLen < tableOfContentsSize
    · simp only [parseTOCFuel, parseTOCFuelStream, if_pos hpl,
        readEntrySize_eq_stream]
      cases hre : readEntrySizeStream tableOfContentsSize st with
      | mk es? st1 =>
        cases es? with
        | none => rfl
        | some entrySize =>
          dsimp only
          cases hrf : readEntryFields entrySize st1 with
          | mk r st2 =>
            cases r with
            | none =>
              dsimp only
              exact ih _ _ _ _ _ _
            | some flds =>
              obtain ⟨a1, a2, a3, a4, a5, a6⟩ := flds
              dsimp only
              exact ih _ _ _ _ _ _
    · simp [parseTOCFuel, parseTOCFuelStream, hpl]

theorem parseTOCFuelStream_file :
    ∀ (fuel tableOfContentsSize overlayPos : Nat) (st : Stream)
      (parsedLen counter : Nat) (acc l : List CTOCEntry) (cres : Nat) (stf : Stream),
      parseTOCFuelStream fuel tableOfContentsSize overlayPos st parsedLen counter acc
        = some (l, cres, stf) →
      stf.file = st.file := by
  intro fuel
  induction fuel with
  | zero =>
    intro _ _ _ _ _ _ _ _ _ heq
    simp [parseTOCFuelStream] at heq
  | succ f ih =>
    intro tableOfContentsSize overlayPos st parsedLen counter acc l cres stf heq
    by_cases hpl : parsedLen < tableOfContentsSize
    · cases hre : readEntrySizeStream tableOfContentsSize st with
      | mk es? st1 =>
        have hf1 : st1.file = st.file := by
          have h := readEntrySizeStream_file tableOfContentsSize st
          rw [hre] at h
          exact h
        cases es? with
        | none =>
          simp only [parseTOCFuelStream, if_pos hpl, hre] at heq
          simp at heq
          rw [← heq.2.2]
          exact hf1
        | some entrySize =>
          cases hrf : readEntryFields entrySize st1 with
          | mk r st2 =>
            have hf2 : st2.file = st1.file := by
              have h := (readEntryFields_cases entrySize st1).1
              rw [hrf] at h
              exact h
            cases r with
            | none =>
              simp only [parseTOCFuelStream, if_pos hpl, hre, hrf] at heq
              rw [ih _ _ _ _ _ _ _ _ _ heq, hf2, hf1]
            | some flds =>
              obtain ⟨a1, a2, a3, a4, a5, a6⟩ := flds
              simp only [parseTOCFuelStream, if_pos hpl, hre, hrf] at heq
              rw [ih _ _ _ _ _ _ _ _ _ heq, hf2, hf1]
    · simp only [parseTOCFuelStream, if_neg hpl] at heq
      simp at heq
      rw [← heq.2.2]

theorem parseTOCRun_file (st : Stream) (tableOfContentsPos tableOfContentsSize
    overlayPos counter : Nat) :
    (parseTOCRun st tableOfContentsPos tableOfContentsSize overlayPos
      counter).2.2.file = st.file := by
  unfold parseTOCRun
  cases heq : parseTOCFuelStream (st.file.length + 2) tableOfContentsSize overlayPos
      (seekTo st tableOfContentsPos) 0 counter [] with
  | none =>
    simp only [heq, Option.getD_none]
    exact seekTo_file st tableOfContentsPos
  | some r =>
    obtain ⟨l, cres, stf⟩ := r
    simp only [heq, Option.getD_some]
    rw [parseTOCFuelStream_file _ _ _ _ _ _ _ _ _ _ heq]
    exact seekTo_file st tableOfContentsPos

theorem applyTask_eval (inflate : List Nat → Nat → Option (List Nat)) (file : List Nat)
    (entries : List CTOCEntry) (fs : List Nat → Option (List Nat)) (i : Nat)
    (name : List Nat) :
    applyTask inflate file entries fs i name
      = match taskOutput inflate file entries i with
        | some nb => if name = nb.1 then some nb.2 else fs name
        | none => fs name := by
  unfold applyTask
  cases taskOutput inflate file entries i <;> rfl

theorem foldl_applyTask_lookup (inflate : List Nat → Nat → Option (List Nat))
    (file : List Nat) (entries : List CTOCEntry) :
    ∀ (sched : List Nat) (fs : List Nat → Option (List Nat)) (name : List Nat),
      (sched.foldl (applyTask inflate file entries) fs) name
        = match sched.reverse.find? (writesTo inflate file entries name) with
          | some i => (taskOutput inflate file entries i).map Prod.snd
          | none => fs name := by
  intro sched
  induction sched with
  | nil => intro fs name; rfl
  | cons i sched ih =>
    intro fs name
    rw [List.foldl_cons, ih, List.reverse_cons, List.find?_append]
    cases hfind : (sched.reverse).find? (writesTo inflate file entries name) with
    | some j => rfl
    | none =>
      cases hw : writesTo inflate file entries name i with
      | true =>
        rw [Option.none_or, List.find?_cons_of_pos _ hw]
        unfold writesTo at hw
        rw [applyTask_eval]
        cases hto : taskOutput inflate file entries i with
        | none => rw [hto] at hw; cases hw
        | some nb =>
          rw [hto] at hw
          simp only [beq_iff_eq] at hw
          simp [hw, hto]
      | false =>
        rw [Option.none_or, List.find?_cons_of_neg _ (by simp [hw])]
        unfold writesTo at hw
        rw [applyTask_eval]
        cases hto : taskOutput inflate file entries i with
        | none => rfl
        | some nb =>
          rw [hto] at hw
          simp only [beq_iff_eq] at hw
          simp [Ne.symm (by simpa using hw)]

theorem find?_eq_of_unique {p : Nat → Bool} {i0 : Nat} :
    ∀ l : List Nat, (∀ j, p j = true → j = i0) → i0 ∈ l → p i0 = true →
      l.find? p = some i0 := by
  intro l
  induction l with
  | nil => intro _ hmem _; cases hmem
  | cons a t ih =>
    intro huniq hmem hp
    by_cases ha : p a = true
    · rw [List.find?_cons_of_pos _ ha, huniq a ha]
    · rw [List.find?_cons_of_neg _ ha]
      have hmem2 : i0 ∈ t := by
        rcases List.mem_cons.mp hmem with h | h
        · exact absurd (h ▸ hp) ha
        · exact h
      exact ih huniq hmem2 hp

theorem writesTo_lt (inflate : List Nat → Nat → Option (List Nat)) (file : List Nat)
    (entries : List CTOCEntry) (name : List Nat) {i : Nat}
    (h : writesTo inflate file entries name i = true) : i < entries.length := by
  unfold writesTo taskOutput at h
  cases hg : entries[i]? with
  | none => rw [hg] at h; cases h
  | some e => exact (List.getElem?_eq_some_iff.mp hg).1

theorem writesTo_name (inflate : List Nat → Nat → Option (List Nat)) (file : List Nat)
    (entries : List CTOCEntry) (name : List Nat) {i : Nat}
    (h : writesTo inflate file entries name i = true) :
    ∃ e, entries[i]? = some e ∧ e.name = name := by
  unfold writesTo taskOutput at h
  cases hg : entries[i]? with
  | none => rw [hg] at h; cases h
  | some e =>
    rw [hg] at h
    dsimp only at h
    refine ⟨e, rfl, ?_⟩
    cases hd : extractResultPure inflate file e with
    | ok bytes => rw [hd] at h; simpa using h
    | decompressionFailed => rw [hd] at h; cases h

theorem writesTo_unique (inflate : List Nat → Nat → Option (List Nat)) (file : List Nat)
    (entries : List CTOCEntry) (name : List Nat)
    (hnd : (entries.map CTOCEntry.name).Nodup) {i j : Nat}
    (hi : writesTo inflate file entries name i = true)
    (hj : writesTo inflate file entries name j = true) : i = j := by
  obtain ⟨ei, hgi, hni⟩ := writesTo_name inflate file entries name hi
  obtain ⟨ej, hgj, hnj⟩ := writesTo_name inflate file entries name hj
  have hilt : i < entries.length := writesTo_lt inflate file entries name hi
  have hmap : (entries.map CTOCEntry.name)[i]? = (entries.map CTOCEntry.name)[j]? := by
    rw [List.getElem?_map, List.getElem?_map, hgi, hgj]
    simp [hni, hnj]
  exact List.getElem?_inj (by simpa using hilt) hnd hmap

theorem decompressAndExtractFile_congr (inflate : List Nat → Nat → Option (List Nat))
    (e : CTOCEntry) (st1 st2 : Stream) (hfile : st1.file = st2.file)
    (hfailed : st1.failed = st2.failed) :
    (decompressAndExtractFile inflate st1 e).1
        = (decompressAndExtractFile inflate st2 e).1 ∧
      (decompressAndExtractFile inflate st1 e).2.file
        = (decompressAndExtractFile inflate st2 e).2.file ∧
      (decompressAndExtractFile inflate st1 e).2.failed
        = (decompressAndExtractFile inflate st2 e).2.failed := by
  obtain ⟨f1, p1, b1⟩ := st1
  obtain ⟨f2, p2, b2⟩ := st2
  simp only at hfile hfailed
  subst hfile
  subst hfailed
  cases b1 with
  | false => simp [decompressAndExtractFile, seekTo]
  | true => simp [decompressAndExtractFile, seekTo, readBytesUnchecked]

theorem extractRun_congr (inflate : List Nat → Nat → Option (List Nat)) :
    ∀ (es : List CTOCEntry) (st1 st2 : Stream), st1.file = st2.file →
      st1.failed = st2.failed →
      (extractRun inflate st1 es).1 = (extractRun inflate st2 es).1 ∧
        (extractRun inflate st1 es).2.file = (extractRun inflate st2 es).2.file ∧
        (extractRun inflate st1 es).2.failed = (extractRun inflate st2 es).2.failed := by
  intro es
  induction es with
  | nil => intro st1 st2 hf hb; exact ⟨rfl, hf, hb⟩
  | cons e es ih =>
    intro st1 st2 hf hb
    obtain ⟨hr, hf2, hb2⟩ := decompressAndExtractFile_congr inflate e st1 st2 hf hb
    obtain ⟨hr2, hf3, hb3⟩ := ih (decompressAndExtractFile inflate st1 e).2
      (decompressAndExtractFile inflate st2 e).2 hf2 hb2
    simp only [extractRun]
    refine ⟨?_, hf3, hb3⟩
    rw [hr, hr2]

theorem decompressAndExtractFile_in_bounds (inflate : List Nat → Nat → Option (List Nat))
    (st : Stream) (e : CTOCEntry) (hst : st.failed = false)
    (hb : e.position + e.cmprsdDataSize ≤ st.file.length) :
    decompressAndExtractFile inflate st e
      = (extractResultPure inflate st.file e,
          ⟨st.file, e.position + e.cmprsdDataSize, false⟩) := by
  obtain ⟨file, pos, b⟩ := st
  simp only at hst hb
  subst hst
  simp [decompressAndExtractFile, seekTo, readBytesUnchecked, extractResultPure, hb]

theorem foldl_applyTaskShared_pure (inflate : List Nat → Nat → Option (List Nat))
    (entries : List CTOCEntry) :
    ∀ (sched : List Nat) (fs : List Nat → Option (List Nat)) (st : Stream),
      st.failed = false →
      (∀ i ∈ sched, ∀ e, entries[i]? = some e →
        e.position + e.cmprsdDataSize ≤ st.file.length) →
      (sched.foldl (applyTaskShared inflate entries) (fs, st)).1
          = sched.foldl (applyTask inflate st.file entries) fs ∧
        (sched.foldl (applyTaskShared inflate entries) (fs, st)).2.file = st.file ∧
        (sched.foldl (applyTaskShared inflate entries) (fs, st)).2.failed = false := by
  intro sched
  induction sched with
  | nil => intro fs st hst _; exact ⟨rfl, rfl, hst⟩
  | cons i sched ih =>
    intro fs st hst hbs
    rw [List.foldl_cons, List.foldl_cons]
    cases hg : entries[i]? with
    | none =>
      have h1 : applyTaskShared inflate entries (fs, st) i = (fs, st) := by
        simp [applyTaskShared, hg]
      have h2 : applyTask inflate st.file entries fs i = fs := by
        simp [applyTask, taskOutput, hg]
      rw [h1, h2]
      exact ih fs st hst fun j hj => hbs j (List.mem_cons_of_mem _ hj)
    | some e =>
      have hbe : e.position + e.cmprsdDataSize ≤ st.file.length :=
        hbs i (List.mem_cons_self i sched) e hg
      have hd := decompressAndExtractFile_in_bounds inflate st e hst hbe
      have h1 : applyTaskShared inflate entries (fs, st) i
          = (applyTask inflate st.file entries fs i,
              ⟨st.file, e.position + e.cmprsdDataSize, false⟩) := by
        simp only [applyTaskShared, hg, hd]
        cases hr : extractResultPure inflate st.file e with
        | ok bytes => simp [applyTask, taskOutput, hg, hr]
        | decompressionFailed => simp [applyTask, taskOutput, hg, hr]
      rw [h1]
      have hnext := ih (applyTask inflate st.file entries fs i)
        ⟨st.file, e.position + e.cmprsdDataSize, false⟩ rfl
        (fun j hj e2 hg2 => by
          have := hbs j (List.mem_cons_of_mem _ hj) e2 hg2
          simpa using this)
      simpa using hnext

theorem pure_schedule_independent (inflate : List Nat → Nat → Option (List Nat))
    (file : List Nat) (entries : List CTOCEntry)
    (hnd : (entries.map CTOCEntry.name).Nodup)
    (sched : List Nat) (hperm : sched.Perm (List.range entries.length))
    (name : List Nat) :
    sched.foldl (applyTask inflate file entries) (fun _ => none) name
      = (List.range entries.length).foldl (applyTask inflate file entries)
          (fun _ => none) name := by
  rw [foldl_applyTask_lookup, foldl_applyTask_lookup]
  by_cases hex : ∃ i, writesTo inflate file entries name i = true
  · obtain ⟨i0, hi0⟩ := hex
    have huniq : ∀ j, writesTo inflate file entries name j = true → j = i0 := fun j hj =>
      writesTo_unique inflate file entries name hnd hj hi0
    have hi0lt : i0 < entries.length := writesTo_lt inflate file entries name hi0
    have hmem1 : i0 ∈ sched.reverse := by
      rw [List.mem_reverse]
      exact hperm.mem_iff.mpr (List.mem_range.mpr hi0lt)
    have hmem2 : i0 ∈ (List.range entries.length).reverse := by
      rw [List.mem_reverse]
      exact List.mem_range.mpr hi0lt
    rw [find?_eq_of_unique _ huniq hmem1 hi0, find?_eq_of_unique _ huniq hmem2 hi0]
  · push_neg at hex
    have h1 : sched.reverse.find? (writesTo inflate file entries name) = none :=
      List.find?_eq_none.mpr fun x _ => by simp [hex x]
    have h2 : (List.range entries.length).reverse.find?
        (writesTo inflate file entries name) = none :=
      List.find?_eq_none.mpr fun x _ => by simp [hex x]
    rw [h1, h2]

theorem encodeEntry_length (e : EntrySpec) :
    (encodeEntry e).length = sizeofEntry + e.name.length := by
  simp [encodeEntry, beBytes32, sizeofEntry]
  omega

theorem encodeTOC_cons (e : EntrySpec) (es : List EntrySpec) :
    encodeTOC (e :: es) = encodeEntry e ++ encodeTOC es := by
  simp [encodeTOC]

theorem length_le_encodeTOC (es : List EntrySpec) :
    es.length ≤ (encodeTOC es).length := by
  induction es with
  | nil => simp [encodeTOC]
  | cons e es ih =>
    rw [encodeTOC_cons, List.length_append, List.length_cons, encodeEntry_length]
    simp only [sizeofEntry]
    omega

theorem readBytes_exact (file : List Nat) (pos n : Nat) (h : pos + n ≤ file.length) :
    readBytes ⟨file, pos, false⟩ n
      = (some ((file.drop pos).take n), ⟨file, pos + n, false⟩) := by
  unfold readBytes
  rw [if_neg (by simp), if_pos h]

theorem leU32_append (xs ys : List Nat) (h : 4 ≤ xs.length) :
    leU32 (xs ++ ys) = leU32 xs := by
  unfold leU32
  rw [List.getD_append _ _ _ _ (by omega), List.getD_append _ _ _ _ (by omega),
    List.getD_append _ _ _ _ (by omega), List.getD_append _ _ _ _ (by omega)]

theorem decodeEntryName_keeps (name : List Nat) (parsedLen counter : Nat)
    (hne : name ≠ []) (hall : ∀ c ∈ name, 33 ≤ c ∧ c ≤ 126 ∧ c ≠ 46)
    (h47 : name.getD 0 0 ≠ 47) (h92 : name.getD 0 0 ≠ 92) :
    decodeEntryName name parsedLen counter = (name, counter) := by
  have hfilter : name.filter (fun c => c ≠ 0) = name :=
    List.filter_eq_self.mpr fun a ha => by
      have := hall a ha
      simp only [ne_eq, decide_eq_true_eq]
      omega
  have h1 : name.isEmpty = false := List.isEmpty_eq_false.mpr hne
  have h2 : (name.getD 0 0 != 47) = true := by simpa using h47
  have h3 : (name.getD 0 0 != 92) = true := by simpa using h92
  have h4 : name.any (fun c => !(c == 32 || c == 9 || c == 10 || c == 13)) = true := by
    rw [List.any_eq_true]
    cases name with
    | nil => exact absurd rfl hne
    | cons a t =>
      obtain ⟨ha1, ha2, ha3⟩ := hall a (List.mem_cons_self a t)
      refine ⟨a, List.mem_cons_self a t, ?_⟩
      have hx : a ≠ 32 ∧ a ≠ 9 ∧ a ≠ 10 ∧ a ≠ 13 := by omega
      simp [hx.1, hx.2.1, hx.2.2.1, hx.2.2.2]
  have h5 : name.all (fun c => decide (32 ≤ c) && decide (c ≤ 126)) = true := by
    rw [List.all_eq_true]
    intro c hc
    obtain ⟨hc1, hc2, _⟩ := hall c hc
    simp only [Bool.and_eq_true, decide_eq_true_eq]
    omega
  have hmap : name.map (fun c => if c = 46 then 95 else c) = name := by
    have hcongr : ∀ a ∈ name, (if a = 46 then 95 else a) = id a := by
      intro a ha
      obtain ⟨_, _, h46⟩ := hall a ha
      simp [h46]
    rw [List.map_congr_left hcongr, List.map_id]
  have hv : ((!name.isEmpty && name.getD 0 0 != 47 && name.getD 0 0 != 92 &&
        name.any fun c => !(c == 32 || c == 9 || c == 10 || c == 13)) &&
      name.all fun c => decide (32 ≤ c) && decide (c ≤ 126)) = true := by
    rw [h1, h2, h3, h4, h5]
    rfl
  simp only [decodeEntryName]
  rw [hfilter, hv]
  simp [hmap]

theorem length_beBytes32 (v : Nat) : (beBytes32 v).length = 4 := rfl

theorem parseTOCFuel_roundTrip :
    ∀ (es : List EntrySpec) (pre : List Nat) (overlayPos : Nat)
      (tocSize parsedLen counter : Nat) (acc : List CTOCEntry) (fuel : Nat),
      (∀ e ∈ es, GoodSpec e) →
      parsedLen + (encodeTOC es).length = tocSize →
      tocSize < 2 ^ 32 →
      es.length + 1 ≤ fuel →
      parseTOCFuel fuel tocSize overlayPos
          ⟨pre ++ encodeTOC es, pre.length, false⟩ parsedLen counter acc
        = some (acc ++ es.map (decodedEntry overlayPos), counter) := by
  intro es
  induction es with
  | nil =>
    intro pre overlayPos tocSize parsedLen counter acc fuel _ hlen _ hfuel
    have hpl : parsedLen = tocSize := by simpa [encodeTOC] using hlen
    cases fuel with
    | zero => omega
    | succ f => simp [parseTOCFuel, hpl, encodeTOC]
  | cons e es ih =>
    intro pre overlayPos tocSize parsedLen counter acc fuel hgood hlen hts hfuel
    obtain ⟨hP, hC, hU, hFl, hT, hT1, hT2, hname, hallc, h47, h92⟩ :=
      hgood e (List.mem_cons_self e es)
    cases fuel with
    | zero => omega
    | succ f =>
      have hEElen : (encodeEntry e).length = sizeofEntry + e.name.length :=
        encodeEntry_length e
      rw [encodeTOC_cons, List.length_append, hEElen] at hlen
      have hESlt : sizeofEntry + e.name.length < 2 ^ 32 := by omega
      have hlt : parsedLen < tocSize := by
        simp only [sizeofEntry] at hlen
        omega
      -- the file, in the three groupings the three reads need
      have hF1 : pre ++ encodeTOC (e :: es)
          = (pre ++ beBytes32 (sizeofEntry + e.name.length))
            ++ (beBytes32 e.entryPos ++ (beBytes32 e.cmprsdDataSize
              ++ (beBytes32 e.uncmprsdDataSize
                ++ ([e.cmprsFlag % 2 ^ 8, e.typeCode % 2 ^ 8]
                  ++ (e.name ++ encodeTOC es))))) := by
        rw [encodeTOC_cons]
        simp [encodeEntry, List.append_assoc]
      have hF2 : pre ++ encodeTOC (e :: es)
          = (pre ++ (beBytes32 (sizeofEntry + e.name.length)
              ++ (beBytes32 e.entryPos ++ (beBytes32 e.cmprsdDataSize
                ++ (beBytes32 e.uncmprsdDataSize
                  ++ [e.cmprsFlag % 2 ^ 8, e.typeCode % 2 ^ 8])))))
            ++ (e.name ++ encodeTOC es) := by
        rw [encodeTOC_cons]
        simp [encodeEntry, List.append_assoc]
      have hF3 : pre ++ encodeTOC (e :: es)
          = (pre ++ encodeEntry e) ++ encodeTOC es := by
        rw [encodeTOC_cons, List.append_assoc]
      have hlenF : (pre ++ encodeTOC (e :: es)).length
          = pre.length + (sizeofEntry + e.name.length) + (encodeTOC es).length := by
        rw [encodeTOC_cons]
        simp [hEElen]
        omega
      -- Step A: the entry-size read
      have hslice4 : ((pre ++ encodeTOC (e :: es)).drop pre.length).take 4
          = beBytes32 (sizeofEntry + e.name.length) := by
        rw [encodeTOC_cons, List.drop_left]
        simp only [encodeEntry, List.append_assoc]
        rw [← length_beBytes32 (sizeofEntry + e.name.length), List.take_left]
      have hre : readEntrySize tocSize ⟨pre ++ encodeTOC (e :: es), pre.length, false⟩
          = some (sizeofEntry + e.name.length,
            ⟨pre ++ encodeTOC (e :: es), pre.length + 4, false⟩) := by
        unfold readEntrySize
        rw [readBytes_exact _ _ _ (by rw [hlenF]; simp only [sizeofEntry]; omega)]
        simp only [hslice4, swapBytes_leU32_beBytes32 _ hESlt]
        rw [if_neg (by simp only [sizeofEntry] at *; omega)]
      -- Step B: the field and name reads
      have hdrop4 : (pre ++ encodeTOC (e :: es)).drop (pre.length + 4)
          = beBytes32 e.entryPos ++ (beBytes32 e.cmprsdDataSize
            ++ (beBytes32 e.uncmprsdDataSize
              ++ ([e.cmprsFlag % 2 ^ 8, e.typeCode % 2 ^ 8]
                ++ (e.name ++ encodeTOC es)))) := by
        rw [hF1, List.drop_left' (by simp [length_beBytes32])]
      have hslice14 : ((pre ++ encodeTOC (e :: es)).drop (pre.length + 4)).take 14
          = beBytes32 e.entryPos ++ (beBytes32 e.cmprsdDataSize
            ++ (beBytes32 e.uncmprsdDataSize
              ++ [e.cmprsFlag % 2 ^ 8, e.typeCode % 2 ^ 8])) := by
        rw [hdrop4]
        rw [show beBytes32 e.entryPos ++ (beBytes32 e.cmprsdDataSize
            ++ (beBytes32 e.uncmprsdDataSize
              ++ ([e.cmprsFlag % 2 ^ 8, e.typeCode % 2 ^ 8]
                ++ (e.name ++ encodeTOC es))))
          = (beBytes32 e.entryPos ++ (beBytes32 e.cmprsdDataSize
            ++ (beBytes32 e.uncmprsdDataSize
              ++ [e.cmprsFlag % 2 ^ 8, e.typeCode % 2 ^ 8])))
            ++ (e.name ++ encodeTOC es) by simp [List.append_assoc]]
        rw [List.take_left' (by simp [length_beBytes32])]
      have hdrop18 : (pre ++ encodeTOC (e :: es)).drop (pre.length + 4 + 14)
          = e.name ++ encodeTOC es := by
        rw [hF2, List.drop_left' (by simp [length_beBytes32])]
      have hname_slice : ((pre ++ encodeTOC (e :: es)).drop (pre.length + 4 + 14)).take
          (sizeofEntry + e.name.length - sizeofEntry) = e.name := by
        rw [hdrop18]
        have : sizeofEntry + e.name.length - sizeofEntry = e.name.length := by omega
        rw [this, List.take_left]
      have hrf : readEntryFields (sizeofEntry + e.name.length)
            ⟨pre ++ encodeTOC (e :: es), pre.length + 4, false⟩
          = (some (e.entryPos, e.cmprsdDataSize, e.uncmprsdDataSize, e.cmprsFlag,
              e.typeCode, e.name),
            ⟨pre ++ encodeTOC (e :: es),
              pre.length + (sizeofEntry + e.name.length), false⟩) := by
        unfold readEntryFields
        rw [if_neg (by omega)]
        rw [readBytes_exact _ _ _ (by rw [hlenF]; simp only [sizeofEntry]; omega)]
        simp only [hslice14]
        rw [readBytes_exact _ _ _ (by rw [hlenF]; simp only [sizeofEntry]; omega)]
        simp only [hname_slice]
        have hfld0 : leU32 (beBytes32 e.entryPos ++ (beBytes32 e.cmprsdDataSize
            ++ (beBytes32 e.uncmprsdDataSize
              ++ [e.cmprsFlag % 2 ^ 8, e.typeCode % 2 ^ 8])))
            = leU32 (beBytes32 e.entryPos) :=
          leU32_append _ _ (by simp [length_beBytes32])
        have hfld4 : (beBytes32 e.entryPos ++ (beBytes32 e.cmprsdDataSize
            ++ (beBytes32 e.uncmprsdDataSize
              ++ [e.cmprsFlag % 2 ^ 8, e.typeCode % 2 ^ 8]))).drop 4
            = beBytes32 e.cmprsdDataSize ++ (beBytes32 e.uncmprsdDataSize
              ++ [e.cmprsFlag % 2 ^ 8, e.typeCode % 2 ^ 8]) :=
          List.drop_left' (length_beBytes32 _)
        have hfld8 : (beBytes32 e.entryPos ++ (beBytes32 e.cmprsdDataSize
            ++ (beBytes32 e.uncmprsdDataSize
              ++ [e.cmprsFlag % 2 ^ 8, e.typeCode % 2 ^ 8]))).drop 8
            = beBytes32 e.uncmprsdDataSize
              ++ [e.cmprsFlag % 2 ^ 8, e.typeCode % 2 ^ 8] := by
          rw [show beBytes32 e.entryPos ++ (beBytes32 e.cmprsdDataSize
              ++ (beBytes32 e.uncmprsdDataSize
                ++ [e.cmprsFlag % 2 ^ 8, e.typeCode % 2 ^ 8]))
            = (beBytes32 e.entryPos ++ beBytes32 e.cmprsdDataSize)
              ++ (beBytes32 e.uncmprsdDataSize
                ++ [e.cmprsFlag % 2 ^ 8, e.typeCode % 2 ^ 8]) by
            simp [List.append_assoc]]
          exact List.drop_left' (by simp [length_beBytes32])
        have hgd12 : (beBytes32 e.entryPos ++ (beBytes32 e.cmprsdDataSize
            ++ (beBytes32 e.uncmprsdDataSize
              ++ [e.cmprsFlag % 2 ^ 8, e.typeCode % 2 ^ 8]))).getD 12 0
            = e.cmprsFlag % 2 ^ 8 := rfl
        have hgd13 : (beBytes32 e.entryPos ++ (beBytes32 e.cmprsdDataSize
            ++ (beBytes32 e.uncmprsdDataSize
              ++ [e.cmprsFlag % 2 ^ 8, e.typeCode % 2 ^ 8]))).getD 13 0
            = e.typeCode % 2 ^ 8 := rfl
        rw [hfld0, swapBytes_leU32_beBytes32 _ hP, hfld4,
          leU32_append _ _ (by simp [length_beBytes32]), swapBytes_leU32_beBytes32 _ hC,
          hfld8, leU32_append _ _ (by simp [length_beBytes32]),
          swapBytes_leU32_beBytes32 _ hU, hgd12, hgd13]
        have hm1 : e.cmprsFlag % 2 ^ 8 % 2 ^ 8 = e.cmprsFlag := by omega
        have hm2 : e.typeCode % 2 ^ 8 % 2 ^ 8 = e.typeCode := by omega
        have hpos : pre.length + 4 + 14 + (sizeofEntry + e.name.length - sizeofEntry)
            = pre.length + (sizeofEntry + e.name.length) := by
          simp only [sizeofEntry]
          omega
        rw [hm1, hm2, hpos]
      -- Step C-E: decode the name, build the entry, recurse
      have hdn : decodeEntryName e.name parsedLen counter = (e.name, counter) :=
        decodeEntryName_keeps e.name parsedLen counter hname hallc h47 h92
      have hadd : addTOCEntry overlayPos e.entryPos e.cmprsdDataSize e.uncmprsdDataSize
          e.cmprsFlag e.typeCode e.name = decodedEntry overlayPos e := by
        unfold addTOCEntry decodedEntry
        rw [if_neg (by simp [hT1, hT2])]
      have hplmod : (parsedLen + (sizeofEntry + e.name.length)) % 2 ^ 32
          = parsedLen + (sizeofEntry + e.name.length) := Nat.mod_eq_of_lt (by omega)
      simp only [parseTOCFuel, if_pos hlt, hre, hrf, hdn, hadd, hplmod]
      rw [show (⟨pre ++ encodeTOC (e :: es),
          pre.length + (sizeofEntry + e.name.length), false⟩ : Stream)
        = ⟨(pre ++ encodeEntry e) ++ encodeTOC es,
            (pre ++ encodeEntry e).length, false⟩ by
        rw [hF3, List.length_append, hEElen]]
      rw [ih (pre ++ encodeEntry e) overlayPos tocSize
        (parsedLen + (sizeofEntry + e.name.length)) counter
        (acc ++ [decodedEntry overlayPos e]) f
        (fun x hx => hgood x (List.mem_cons_of_mem e hx))
        (by omega) hts (by simpa using hfuel)]
      simp

/- ## Theorems for the claims -/

/-- C5 (code bug): on a 16-byte file whose only genuine magic occurrence
is at offset 1, `findCookie` returns offset 9 — the match lies in the
cyclic-copy tail of the scan buffer, where the last file bytes are
followed by copies of the first file bytes, so the locator does not
return the unique occurrence position. -/
theorem findCookie_wrap_false_positive :
    findCookie wrapFalsePositiveFile = some 9 ∧
    hasMagicAt wrapFalsePositiveFile 1 = true ∧
    ∀ p : Nat, hasMagicAt wrapFalsePositiveFile p = true → p = 1 := by
  refine ⟨by decide, by decide, ?_⟩
  intro p hp
  have hlen : wrapFalsePositiveFile.length = 16 := by decide
  have hle : p + 8 ≤ 16 := hlen ▸ hasMagicAt_length_le hp
  have hp8 : p ≤ 8 := by omega
  interval_cases p <;> revert hp <;> decide

/-- C8 (code bug): a 16-byte file of sufficient size containing no
occurrence of the magic anywhere on which `findCookie` nevertheless
reports a cookie at offset 9 (a match inside the cyclic-copy tail of
the scan buffer), instead of failing with the missing-cookie error. -/
theorem findCookie_false_success_without_magic :
    isFileValid noMagicWrapFile.length = true ∧
    findCookie noMagicWrapFile = some 9 ∧
    ∀ p : Nat, hasMagicAt noMagicWrapFile p = false := by
  refine ⟨by decide, by decide, ?_⟩
  intro p
  by_cases hp : p ≤ 8
  · interval_cases p <;> decide
  · cases h : hasMagicAt noMagicWrapFile p with
    | false => rfl
    | true =>
      have hlen : noMagicWrapFile.length = 16 := by decide
      have := hasMagicAt_length_le h
      omega

/-- C1 (counterexample): a TOC consisting of a record declaring the
invalid entry size 5 followed by a well-formed record; the scan stops at
the malformed record and decodes nothing, even though the trailing
record is decodable on its own. -/
theorem parseTOC_malformed_entry_aborts_scan_cex :
    parseTOC malformedThenGoodTOC 0 malformedThenGoodTOC.length 0 0 = ([], 0) ∧
    parseTOC (encodeEntry plainSpecA) 0 (encodeEntry plainSpecA).length 0 0
      = ([⟨0, 1, 1, 0, 100, [97]⟩], 0) := by
  decide

/-- C2 (counterexample): an archive written with the single entry name
`"a.py"` decodes to an entry named `"a_py"` — `decodeEntryName` replaces
every `'.'` by `'_'`, so decoded names do not always equal the names
written into the archive. -/
theorem parseTOC_dotted_name_mangled_cex :
    (parseTOC (encodeEntry dottedNameSpec) 0 (encodeEntry dottedNameSpec).length 0 0).1
      = [⟨0, 4, 4, 0, 100, [97, 95, 112, 121]⟩] ∧
    ([97, 95, 112, 121] : List Nat) ≠ [97, 46, 112, 121] := by
  decide

/-- C2 (amended): round-trip of the TOC decoder for entries whose names
survive decoding: for every synthetically constructed archive of N
entries with in-range sizes, kind codes other than script/module, and
printable names containing no NUL, no `'.'` and not starting with a path
separator, `parseTOC` returns exactly N entries, in construction order,
whose names and compressed/uncompressed sizes equal those written into
the archive.  (Names containing `'.'` come back with the dots replaced
by `'_'`, and extension-less script/module entries gain a `".pyc"`
suffix, so the unrestricted claim fails.) -/
theorem parseTOC_roundTrip (es : List EntrySpec) (pre : List Nat)
    (overlayPos counter : Nat) (hgood : ∀ e ∈ es, GoodSpec e)
    (hsz : (encodeTOC es).length < 2 ^ 32) :
    parseTOC (pre ++ encodeTOC es) pre.length (encodeTOC es).length overlayPos counter
      = (es.map (decodedEntry overlayPos), counter) := by
  unfold parseTOC
  have hfuel : es.length + 1 ≤ (pre ++ encodeTOC es).length + 2 := by
    have := length_le_encodeTOC es
    rw [List.length_append]
    omega
  rw [parseTOCFuel_roundTrip es pre overlayPos _ 0 counter [] _ hgood (by omega) hsz
    hfuel]
  rfl

/-- Witness for the amended C2 theorem: a two-entry archive decodes to
exactly its two entries, in order, with matching names and sizes. -/
theorem parseTOC_roundTrip_witness :
    parseTOC ([] ++ encodeTOC [plainSpecA, plainSpecB]) (List.length ([] : List Nat))
        (encodeTOC [plainSpecA, plainSpecB]).length 0 0
      = ([plainSpecA, plainSpecB].map (decodedEntry 0), 0) :=
  parseTOC_roundTrip [plainSpecA, plainSpecB] [] 0 0 (by decide) (by decide)

/-- C3 (counterexample): decoding the same archive twice is not
idempotent, for two independent reasons.  First, the fallback-name
counter is a function-local `static` persisting across runs: decoding a
one-entry archive with an invalid (NUL) name synthesizes
`"unnamed_0_0"` and leaves the counter at 1, so an immediate second
decode of the same bytes synthesizes `"unnamed_0_1"` — different entry
lists.  Second, the handle's fail bit persists across runs (`seekg`
never clears it): the first decode of a TOC whose second record is
truncated returns the one good entry with the counter unchanged at 0
but leaves the fail bit set, so the second decode's seek and reads all
fail and it returns the empty list. -/
theorem parseTOC_not_idempotent_cex :
    ((parseTOCRun
          (parseTOCRun ⟨encodeEntry nulNameSpec, 0, false⟩ 0 19 0 0).2.2 0 19 0
          (parseTOCRun ⟨encodeEntry nulNameSpec, 0, false⟩ 0 19 0 0).2.1).1
        ≠ (parseTOCRun ⟨encodeEntry nulNameSpec, 0, false⟩ 0 19 0 0).1) ∧
      (parseTOCRun ⟨truncatedTOC, 0, false⟩ 0 39 0 0).1
        = [⟨0, 1, 1, 0, 100, [97]⟩] ∧
      (parseTOCRun ⟨truncatedTOC, 0, false⟩ 0 39 0 0).2.1 = 0 ∧
      (parseTOCRun ⟨truncatedTOC, 0, false⟩ 0 39 0 0).2.2.failed = true ∧
      (parseTOCRun (parseTOCRun ⟨truncatedTOC, 0, false⟩ 0 39 0 0).2.2 0 39 0
          (parseTOCRun ⟨truncatedTOC, 0, false⟩ 0 39 0 0).2.1).1 = [] := by
  decide

/-- C10 (confirmed): the TOC scan loop finishes for every input within
`file.length + 2` iterations — each iteration either leaves the loop
(unreadable or invalid entry size), or reads at least `entrySize ≥ 18`
stream bytes and advances `parsedLen` by `entrySize`, or puts the stream
into the failed state after which the next iteration leaves the loop, so
the fuelled loop never runs out of fuel. -/
theorem parseTOC_loop_terminates (file : List Nat)
    (tableOfContentsPos tableOfContentsSize overlayPos counter : Nat) :
    (parseTOCFuel (file.length + 2) tableOfContentsSize overlayPos
      ⟨file, tableOfContentsPos, false⟩ 0 counter []).isSome = true :=
  parseTOCFuel_isSome (file.length + 2) tableOfContentsSize overlayPos
    ⟨file, tableOfContentsPos, false⟩ 0 counter [] (by omega) (fun _ => by simp)

/-- C1 (amended): an entry whose declared `entrySize` fails the
validation `sizeofEntry ≤ entrySize ≤ tableOfContentsSize` makes the
scan stop at that entry: the entries decoded before it are returned and
nothing after it is examined.  (Skip-and-continue recovery, advancing
`parsedLen` by `entrySize`, applies only to entries whose field or name
reads fail after a valid `entrySize`.) -/
theorem parseTOC_invalid_entrySize_stops_scan (fuel tableOfContentsSize overlayPos : Nat)
    (st st1 : Stream) (bs : List Nat) (parsedLen counter : Nat) (acc : List CTOCEntry)
    (hlt : parsedLen < tableOfContentsSize)
    (hrd : readBytes st 4 = (some bs, st1))
    (hbad : swapBytes (leU32 bs) < sizeofEntry ∨
      swapBytes (leU32 bs) > tableOfContentsSize) :
    parseTOCFuel (fuel + 1) tableOfContentsSize overlayPos st parsedLen counter acc
      = some (acc, counter) := by
  have hres : readEntrySize tableOfContentsSize st = none := by
    unfold readEntrySize
    rw [hrd]
    exact if_pos hbad
  simp only [parseTOCFuel, if_pos hlt, hres]

/-- Witness for the amended C1 theorem at the concrete malformed TOC. -/
theorem parseTOC_invalid_entrySize_stops_scan_witness :
    parseTOCFuel 6 24 0 ⟨malformedThenGoodTOC, 0, false⟩ 0 0 [] = some ([], 0) :=
  parseTOC_invalid_entrySize_stops_scan 5 24 0 ⟨malformedThenGoodTOC, 0, false⟩
    ⟨malformedThenGoodTOC, 4, false⟩ [0, 0, 0, 5] 0 0 []
    (by decide) (by decide) (by decide)

/-- C4 (confirmed): offset resolution computes exactly the claimed
formulas: the primary TOC position is derived from
`tailBytes = fileSize - cookiePosition - headerSize`,
`overlaySize = packageLength + tailBytes`,
`overlayPosition = fileSize - overlaySize`,
`tocPosition = overlayPosition + tocRelativeOffset` (`u64` arithmetic);
when `tocPosition < fileSize ∧ tocPosition + tocSize ≤ fileSize` fails,
the fallback `cookiePosition + headerSize + tocRelativeOffset` is
revalidated, and if that also fails the operation throws, which
`getCArchiveInfo` turns into an abort of the whole operation. -/
theorem calculateOverlayInfo_follows_spec
    (fileSize cookiePos pyinstVer packageLength tocRelativeOffset tocLen : Nat) :
    calculateOverlayInfo fileSize cookiePos pyinstVer packageLength tocRelativeOffset tocLen
      = ((if specTocValid fileSize (specPrimaryTocPos fileSize cookiePos
            (cookieSizeFor pyinstVer) packageLength tocRelativeOffset) tocLen then
          .ok ⟨specOverlaySize fileSize cookiePos (cookieSizeFor pyinstVer) packageLength,
            specOverlayPos fileSize cookiePos (cookieSizeFor pyinstVer) packageLength,
            specPrimaryTocPos fileSize cookiePos (cookieSizeFor pyinstVer) packageLength
              tocRelativeOffset, tocLen⟩
        else if specTocValid fileSize (specFallbackTocPos cookiePos
            (cookieSizeFor pyinstVer) tocRelativeOffset) tocLen then
          .ok ⟨specOverlaySize fileSize cookiePos (cookieSizeFor pyinstVer) packageLength,
            specOverlayPos fileSize cookiePos (cookieSizeFor pyinstVer) packageLength,
            specFallbackTocPos cookiePos (cookieSizeFor pyinstVer) tocRelativeOffset,
            tocLen⟩
        else .error ()) : Except Unit ResolvedLayout) := by
  simp only [calculateOverlayInfo, specTocValid, specPrimaryTocPos, specFallbackTocPos,
    specOverlayPos, specOverlaySize, specTailBytes]
  split_ifs <;> first | rfl | omega

/-- C6 (confirmed): when the 64-byte probe window 24 bytes after the
signature position is readable, header layout detection returns
version 21 (layout V1, total header size 88) exactly when the window
contains the token `"python"` in any letter case, and version 20
(layout V0, header size 24) exactly when it does not. -/
theorem determinePyinstallerVersion_token_selects_layout (file : List Nat)
    (cookiePos : Nat) (h : cookiePos + PYINST21_COOKIE_SIZE ≤ file.length) :
    (determinePyinstallerVersion file cookiePos = .ok 21 ↔
      tokenOccursAnyCase ((file.drop (cookiePos + PYINST20_COOKIE_SIZE)).take 64)) ∧
    (determinePyinstallerVersion file cookiePos = .ok 20 ↔
      ¬ tokenOccursAnyCase ((file.drop (cookiePos + PYINST20_COOKIE_SIZE)).take 64)) ∧
    cookieSizeFor 21 = 88 ∧ cookieSizeFor 20 = 24 := by
  have hlen : ((file.drop (cookiePos + PYINST20_COOKIE_SIZE)).take 64).length = 64 := by
    rw [List.length_take, List.length_drop]
    simp only [PYINST21_COOKIE_SIZE, PYINST20_COOKIE_SIZE] at h ⊢
    omega
  simp only [determinePyinstallerVersion]
  rw [hlen, if_neg (by omega)]
  rcases hc : containsSeq (((file.drop (cookiePos + PYINST20_COOKIE_SIZE)).take 64).map
      tolowerByte) pythonToken with _ | _
  · have hnot : ¬ tokenOccursAnyCase ((file.drop (cookiePos +
        PYINST20_COOKIE_SIZE)).take 64) := fun htok =>
      absurd ((containsSeq_lower_iff _).mpr htok) (by rw [hc]; simp)
    rw [if_neg (by simp)]
    exact ⟨⟨fun habs => absurd habs (by simp), fun htok => absurd htok hnot⟩,
      ⟨fun _ => hnot, fun _ => rfl⟩, by decide, by decide⟩
  · have htok : tokenOccursAnyCase ((file.drop (cookiePos +
        PYINST20_COOKIE_SIZE)).take 64) := (containsSeq_lower_iff _).mp hc
    rw [if_pos rfl]
    exact ⟨⟨fun _ => htok, fun _ => rfl⟩,
      ⟨fun habs => absurd habs (by simp), fun hn => absurd htok hn⟩, by decide, by decide⟩

/-- Witness for the C6 theorem: a file whose probe window contains
`"PYthoN"` is detected as version 21 with an 88-byte header. -/
theorem determinePyinstallerVersion_token_selects_layout_witness :
    (0 : Nat) + PYINST21_COOKIE_SIZE ≤
        (List.replicate 24 0 ++ [80, 89, 116, 104, 111, 78] ++
          List.replicate 58 32).length ∧
      determinePyinstallerVersion
        (List.replicate 24 0 ++ [80, 89, 116, 104, 111, 78] ++ List.replicate 58 32) 0
        = .ok 21 := by
  refine ⟨by decide, ?_⟩
  have h := determinePyinstallerVersion_token_selects_layout
    (List.replicate 24 0 ++ [80, 89, 116, 104, 111, 78] ++ List.replicate 58 32) 0
    (by decide)
  refine h.1.mpr ⟨0, [80, 89, 116, 104, 111, 78], ?_, by decide⟩
  decide

/-- C3 (amended): decoding the same archive twice over the same handle
yields bit-identical entry lists provided the first run synthesizes no
fallback name (it leaves the persistent `static` counter unchanged) and
leaves the shared stream healthy (no truncated read set the fail bit,
which the second run's `seekg` would not clear).  The second run is then
the identical computation: same entry list, same counter, same final
stream.  The counterexample shows both provisos are necessary. -/
theorem parseTOC_idempotent_of_clean_run (file : List Nat)
    (tableOfContentsPos tableOfContentsSize overlayPos c : Nat)
    (hc : (parseTOCRun ⟨file, 0, false⟩ tableOfContentsPos tableOfContentsSize
      overlayPos c).2.1 = c)
    (hf : (parseTOCRun ⟨file, 0, false⟩ tableOfContentsPos tableOfContentsSize
      overlayPos c).2.2.failed = false) :
    parseTOCRun (parseTOCRun ⟨file, 0, false⟩ tableOfContentsPos
        tableOfContentsSize overlayPos c).2.2 tableOfContentsPos
        tableOfContentsSize overlayPos
        (parseTOCRun ⟨file, 0, false⟩ tableOfContentsPos tableOfContentsSize
          overlayPos c).2.1
      = parseTOCRun ⟨file, 0, false⟩ tableOfContentsPos tableOfContentsSize
          overlayPos c := by
  rw [hc]
  have hfile : (parseTOCRun ⟨file, 0, false⟩ tableOfContentsPos
      tableOfContentsSize overlayPos c).2.2.file = file :=
    parseTOCRun_file ⟨file, 0, false⟩ tableOfContentsPos tableOfContentsSize
      overlayPos c
  have hseek : seekTo (parseTOCRun ⟨file, 0, false⟩ tableOfContentsPos
        tableOfContentsSize overlayPos c).2.2 tableOfContentsPos
      = (⟨file, tableOfContentsPos, false⟩ : Stream) := by
    unfold seekTo
    rw [hf, hfile]
    simp
  conv_lhs => rw [parseTOCRun]
  rw [hseek, hfile]
  conv_rhs => rw [parseTOCRun]
  rw [show seekTo ⟨file, 0, false⟩ tableOfContentsPos
    = (⟨file, tableOfContentsPos, false⟩ : Stream) from rfl]

/-- Witness for the amended C3 theorem: a one-entry archive with a valid
name decodes cleanly (counter unchanged, fail bit clear), and the second
run over the same handle returns the identical result. -/
theorem parseTOC_idempotent_of_clean_run_witness :
    (parseTOCRun ⟨encodeEntry plainSpecA, 0, false⟩ 0 19 0 0).2.1 = 0 ∧
      (parseTOCRun ⟨encodeEntry plainSpecA, 0, false⟩ 0 19 0 0).2.2.failed = false ∧
      parseTOCRun (parseTOCRun ⟨encodeEntry plainSpecA, 0, false⟩ 0 19 0 0).2.2 0 19 0
          (parseTOCRun ⟨encodeEntry plainSpecA, 0, false⟩ 0 19 0 0).2.1
        = parseTOCRun ⟨encodeEntry plainSpecA, 0, false⟩ 0 19 0 0 :=
  ⟨by decide, by decide,
    parseTOC_idempotent_of_clean_run (encodeEntry plainSpecA) 0 19 0 0
      (by decide) (by decide)⟩

/-- C9 (counterexample): pool-size determinism fails in two ways.
First, `parseTOC` can decode two entries with the same valid name `"a"`
but different payload bytes; a pool with one worker completes them in
queue order `[0, 1]` and writes `"B"` to `a`, while a multi-worker pool
may complete them as `[1, 0]` and write `"A"`.  Second, even with
pairwise distinct names: when one entry's declared payload overruns the
file, its unchecked locked read raises the fail bit on the shared
stream, so every entry whose read is serialized after it reads zeros —
completing the poisoning task first or last yields different bytes for
the other entry's file.  In both cases pool sizes 1 and 8 can produce
different output bytes. -/
theorem extraction_schedule_dependent_cex :
    (parseTOC dupNameArchive 2 (encodeTOC [plainSpecA, dupSpecA]).length 0 0).1
      = dupNameEntries ∧
    List.Perm [1, 0] (List.range dupNameEntries.length) ∧
    (runSchedule inflateNever ⟨dupNameArchive, 0, false⟩ dupNameEntries
        (List.range dupNameEntries.length)).1 [97] = some [66] ∧
    (runSchedule inflateNever ⟨dupNameArchive, 0, false⟩ dupNameEntries [1, 0]).1 [97]
      = some [65] ∧
    (some [66] : Option (List Nat)) ≠ some [65] ∧
    (poisonEntries.map CTOCEntry.name).Nodup ∧
    (runSchedule inflateNever ⟨[65, 66], 0, false⟩ poisonEntries
        (List.range poisonEntries.length)).1 [97] = some [65] ∧
    (runSchedule inflateNever ⟨[65, 66], 0, false⟩ poisonEntries [1, 0]).1 [97]
      = some [0] ∧
    (some [65] : Option (List Nat)) ≠ some [0] := by
  decide

/-- C9 (amended): when the decoded entries carry pairwise distinct
names, the shared stream starts healthy, and every entry's declared
payload slice lies inside the file — so no unchecked read can raise the
fail bit — the output tree is the same for every completion schedule
that is a permutation of the task list: a single-worker pool (queue
order) and any multi-worker pool produce byte-identical output files,
and only the completion order differs.  Duplicate names (the last
completed writer wins) or an out-of-file payload read (the fail bit
poisons every later read) each make the output schedule-dependent. -/
theorem extraction_deterministic_of_distinct_names
    (inflate : List Nat → Nat → Option (List Nat)) (st : Stream)
    (entries : List CTOCEntry)
    (hst : st.failed = false)
    (hnd : (entries.map CTOCEntry.name).Nodup)
    (hbounds : ∀ e ∈ entries, e.position + e.cmprsdDataSize ≤ st.file.length)
    (sched : List Nat) (hperm : sched.Perm (List.range entries.length))
    (name : List Nat) :
    (runSchedule inflate st entries sched).1 name
      = (runSchedule inflate st entries (List.range entries.length)).1 name := by
  have hmem : ∀ (i : Nat) (e : CTOCEntry), entries[i]? = some e →
      e.position + e.cmprsdDataSize ≤ st.file.length := by
    intro i e hg
    obtain ⟨hlt, hge⟩ := List.getElem?_eq_some_iff.mp hg
    exact hbounds e (hge ▸ List.getElem_mem hlt)
  have h1 := foldl_applyTaskShared_pure inflate entries sched (fun _ => none) st hst
    fun i _ => hmem i
  have h2 := foldl_applyTaskShared_pure inflate entries (List.range entries.length)
    (fun _ => none) st hst fun i _ => hmem i
  unfold runSchedule
  rw [h1.1, h2.1]
  exact pure_schedule_independent inflate st.file entries hnd sched hperm name

/-- Witness for the amended C9 theorem: two distinct-name in-bounds
entries extracted from a healthy stream under the reversed schedule give
the same output as under queue order. -/
theorem extraction_deterministic_of_distinct_names_witness :
    (⟨[65, 66], 0, false⟩ : Stream).failed = false ∧
      ([⟨0, 1, 1, 0, 100, [97]⟩, ⟨1, 1, 1, 0, 100, [98]⟩].map CTOCEntry.name).Nodup ∧
      (∀ e ∈ [(⟨0, 1, 1, 0, 100, [97]⟩ : CTOCEntry), ⟨1, 1, 1, 0, 100, [98]⟩],
        e.position + e.cmprsdDataSize ≤ (⟨[65, 66], 0, false⟩ : Stream).file.length) ∧
      List.Perm [1, 0] (List.range 2) ∧
      (runSchedule inflateNever ⟨[65, 66], 0, false⟩
          [⟨0, 1, 1, 0, 100, [97]⟩, ⟨1, 1, 1, 0, 100, [98]⟩] [1, 0]).1 [97]
        = (runSchedule inflateNever ⟨[65, 66], 0, false⟩
            [⟨0, 1, 1, 0, 100, [97]⟩, ⟨1, 1, 1, 0, 100, [98]⟩] (List.range 2)).1 [97] :=
  ⟨rfl, by decide, by decide, by decide,
    extraction_deterministic_of_distinct_names inflateNever ⟨[65, 66], 0, false⟩
      [⟨0, 1, 1, 0, 100, [97]⟩, ⟨1, 1, 1, 0, 100, [98]⟩] rfl (by decide) (by decide)
      [1, 0] (by decide) [97]⟩

/-- C7 (counterexample): a failing compressed entry is not always
isolated.  `shortReadEntry`'s declared payload overruns the file, so its
unchecked locked read zero-pads the buffer and raises the fail bit on
the shared stream before inflate fails; a later healthy stored entry
then reads zeros instead of its payload, and its written bytes differ
from the run without the failing entry. -/
theorem decompression_poisons_stream_cex :
    (decompressAndExtractFile inflateNever ⟨[65, 66], 0, false⟩ shortReadEntry).1
        = .decompressionFailed ∧
      (decompressAndExtractFile inflateNever ⟨[65, 66], 0, false⟩
          shortReadEntry).2.failed = true ∧
      (extractRun inflateNever ⟨[65, 66], 0, false⟩
          [shortReadEntry, plainEntryA]).1 = [([97], [0])] ∧
      (extractRun inflateNever ⟨[65, 66], 0, false⟩ [plainEntryA]).1
        = [([97], [65])] ∧
      ([([97], [0])] : List (List Nat × List Nat)) ≠ [([97], [65])] := by
  decide

/-- C7 (amended): when the failing compressed entry's payload read stays
inside the file and the shared stream is healthy when the entry runs,
the failure is isolated: the entry yields `decompressionFailed`, is
dropped from the successful output set, no retry occurs (each task
evaluates its entry once), and the rest of the run produces exactly the
outputs it produces in a run without the entry.  When the entry's
payload read overruns the file, the unchecked read instead poisons the
shared stream for every later entry (counterexample). -/
theorem decompressionFailed_isolated (inflate : List Nat → Nat → Option (List Nat))
    (st : Stream) (e : CTOCEntry) (post : List CTOCEntry)
    (hst : st.failed = false)
    (hc : isCompressedEntry e = true)
    (hb : e.position + e.cmprsdDataSize ≤ st.file.length)
    (hf : inflate ((st.file.drop e.position).take e.cmprsdDataSize)
      e.uncmprsdDataSize = none) :
    (decompressAndExtractFile inflate st e).1 = .decompressionFailed ∧
      (extractRun inflate st (e :: post)).1 = (extractRun inflate st post).1 := by
  have hd := decompressAndExtractFile_in_bounds inflate st e hst hb
  have h1 : (decompressAndExtractFile inflate st e).1 = .decompressionFailed := by
    rw [hd]
    simp [extractResultPure, hc, hf]
  have h2 : (decompressAndExtractFile inflate st e).2
      = (⟨st.file, e.position + e.cmprsdDataSize, false⟩ : Stream) := by
    rw [hd]
  refine ⟨h1, ?_⟩
  simp only [extractRun]
  rw [h1, h2]
  exact (extractRun_congr inflate post
    ⟨st.file, e.position + e.cmprsdDataSize, false⟩ st rfl hst.symm).1

/-- Witness for the amended C7 theorem: an in-bounds failing compressed
entry in front of a stored entry is dropped while the stored entry still
extracts its own bytes. -/
theorem decompressionFailed_isolated_witness :
    (⟨[65, 66], 0, false⟩ : Stream).failed = false ∧
      isCompressedEntry ⟨0, 2, 2, 1, 100, [99]⟩ = true ∧
      (⟨0, 2, 2, 1, 100, [99]⟩ : CTOCEntry).position
          + (⟨0, 2, 2, 1, 100, [99]⟩ : CTOCEntry).cmprsdDataSize
        ≤ (⟨[65, 66], 0, false⟩ : Stream).file.length ∧
      (decompressAndExtractFile inflateNever ⟨[65, 66], 0, false⟩
          ⟨0, 2, 2, 1, 100, [99]⟩).1 = .decompressionFailed ∧
      (extractRun inflateNever ⟨[65, 66], 0, false⟩
          [⟨0, 2, 2, 1, 100, [99]⟩, ⟨0, 1, 1, 0, 100, [97]⟩]).1
        = (extractRun inflateNever ⟨[65, 66], 0, false⟩
            [⟨0, 1, 1, 0, 100, [97]⟩]).1 := by
  have h := decompressionFailed_isolated inflateNever ⟨[65, 66], 0, false⟩
    ⟨0, 2, 2, 1, 100, [99]⟩ [⟨0, 1, 1, 0, 100, [97]⟩] rfl (by decide) (by decide) rfl
  exact ⟨rfl, by decide, by decide, h.1, h.2⟩

end Pyextract
